import Mathlib

/-!
Shallow embedding of `src/transliterate_app/transliterate_app.py`
(the multi-pane lexicon-based transliteration synchronization engine).

Modelling conventions:
* Python strings are modelled as `List Char` (`Str`); Python `len`, slicing
  and per-code-point iteration translate directly.
* Python dicts are modelled as association lists (`Dict`), with `dget`
  (lookup, `d.get(k)`) and `dset` (write `d[k] = v`, replacing in place or
  appending, matching insertion-order dict semantics).
* The Qt widget layer is modelled by explicit `Pane` records inside an
  `AppState`; reading `edit.toPlainText()` becomes reading `Pane.text`,
  `setPlainText` becomes a functional update.  After `setPlainText` Qt
  resets the cursor to the document start; restoring a saved cursor clamps
  it to the new document length.
* All functions are total, as the Python operations modelled here are
  (each theorem notes where a hypothesis rules out a Python exception
  such as `IndexError` on ragged rows).
-/

set_option maxHeartbeats 1000000

abbrev Str := List Char

/-- Module-level constant `PUNCT = set(";:.,?!")`. -/
def PUNCT : List Char := [';', ':', '.', ',', '?', '!']

/-- `c in PUNCT` for a single character. -/
def isPunct (c : Char) : Bool := PUNCT.contains c

/-- Python whitespace test used by `str.strip()` / `str.split()`. -/
def isWs (c : Char) : Bool := c.isWhitespace

/-- `tok in PUNCT` for a string token: true iff the token is one
    punctuation character. -/
def isPunctTok (t : Str) : Bool :=
  match t with
  | [c] => isPunct c
  | _ => false

/-- Python `str.strip()`: drop leading and trailing whitespace. -/
def strip (l : Str) : Str :=
  ((l.dropWhile isWs).reverse.dropWhile isWs).reverse

/-- `split_trailing_punct` from transliterate_app.py: keep a bracketed
    placeholder whole; otherwise peel trailing punctuation characters off
    the end, yielding the head (if non-empty) followed by each stripped
    punctuation character as its own token.  The Python index loop
    (`while i > 0 and token[i-1] in PUNCT`) is the reverse
    takeWhile/dropWhile below. -/
def split_trailing_punct (token : Str) : List Str :=
  if token = [] then []
  else if token.head? = some '[' ∧ token.getLast? = some ']' then [token]
  else
    let hd := (token.reverse.dropWhile isPunct).reverse
    let tl := (token.reverse.takeWhile isPunct).reverse
    (if hd = [] then [] else [hd]) ++ tl.map (fun c => [c])

/-- Python `str.split()` with no argument: maximal runs of
    non-whitespace characters, in order. -/
def wsSplit (l : Str) : List Str :=
  match l with
  | c :: cs =>
    if h : isWs c then wsSplit cs
    else (c :: cs).takeWhile (fun x => !isWs x)
         :: wsSplit ((c :: cs).dropWhile (fun x => !isWs x))
  | [] => []
termination_by l.length
decreasing_by
  · simp
  · simp only [List.dropWhile_cons]
    rw [if_pos (by simp [h])]
    exact Nat.lt_succ_of_le ((List.dropWhile_sublist _).length_le)

/-- `Transcriber._tokens_ws`: whitespace-mode tokenizer. -/
def tokens_ws (text : Str) : List Str :=
  if strip text = [] then []
  else (wsSplit (strip text)).flatMap split_trailing_punct

/-- Is `c` in the CJK Unified Ideographs range U+4E00..U+9FFF
    (`"一" <= c <= "鿿"`). -/
def isCJK (c : Char) : Bool := 0x4e00 ≤ c.toNat && c.toNat ≤ 0x9fff

/-- Character class of the plain-run branch of
    `Transcriber._tokens_space_free`: neither `[` nor CJK. -/
def isPlain (c : Char) : Bool := !(c = '[') && !(isCJK c)

/-- Main scan loop of `Transcriber._tokens_space_free`.  The Python
    `text.find("]", i + 1)` is `findIdx?` on the remainder; the Python
    inner `while` collecting a plain run is takeWhile/dropWhile. -/
def sfScan : Str → List Str
  | [] => []
  | c :: cs =>
    if c = '[' then
      match cs.findIdx? (fun x => x = ']') with
      | none => [c :: cs]                              -- incomplete bracket blob
      | some j => ('[' :: cs.take (j + 1)) :: sfScan (cs.drop (j + 1))
    else if isCJK c then [c] :: sfScan cs
    else
      split_trailing_punct ((c :: cs).takeWhile isPlain)
        ++ sfScan ((c :: cs).dropWhile isPlain)
termination_by l => l.length
decreasing_by
  · simp only [List.length_drop, List.length_cons]
    omega
  · simp
  · simp only [List.dropWhile_cons]
    rw [if_pos (by simp_all [isPlain])]
    exact Nat.lt_succ_of_le ((List.dropWhile_sublist _).length_le)

/-- `Transcriber._tokens_space_free`: the scan, with empty tokens
    discarded (`[t for t in out if t != ""]`). -/
def tokens_space_free (text : Str) : List Str :=
  (sfScan text).filter (fun t => t ≠ [])

/-- Pieces accumulator of `Transcriber._join` (whitespace branch).  The
    accumulator holds the Python `pieces` list in reverse order, so the
    Python `pieces[-1]` is the head. -/
def joinWsAux (acc : List Str) (tokens : List Str) : List Str :=
  match tokens with
  | [] => acc
  | tok :: rest =>
    if isPunctTok tok then
      -- pieces.append(tok); if not last, pieces.append(" ")
      joinWsAux ((if rest = [] then [] else [[' ']]) ++ tok :: acc) rest
    else
      -- if pieces and not pieces[-1].endswith(" "): pieces.append(" ")
      let acc1 := match acc with
        | [] => acc
        | p :: _ => if p.getLast? = some ' ' then acc else [' '] :: acc
      joinWsAux (tok :: acc1) rest

/-- `Transcriber._join`, whitespace branch:
    `"".join(pieces).strip()`. -/
def join_ws (tokens : List Str) : Str :=
  strip ((joinWsAux [] tokens).reverse.flatten)

/-- `Transcriber._join`, space-free branch: `"".join(tokens)`. -/
def join_sf (tokens : List Str) : Str := tokens.flatten

/-- `Transcriber._tokens`: dispatch on `lang in self.space_free`. -/
def tokensFor (space_free : List Str) (text : Str) (lang : Str) : List Str :=
  if lang ∈ space_free then tokens_space_free text else tokens_ws text

/-- `Transcriber._join`: dispatch on `lang in self.space_free`. -/
def joinFor (space_free : List Str) (tokens : List Str) (lang : Str) : Str :=
  if lang ∈ space_free then join_sf tokens else join_ws tokens

/-! ## Dicts and the lexicon index (`parse_csv`, `build_index_maps`,
    `space_free_columns`) -/

/-- Python dict modelled as an insertion-ordered association list. -/
abbrev Dict (β : Type) := List (Str × β)

/-- `d.get(k)` / `d[k]`. -/
def dget {β : Type} (d : Dict β) (k : Str) : Option β :=
  (d.find? (fun p => p.1 = k)).map (fun p => p.2)

/-- `d[k] = v`: replace in place if the key exists, else append. -/
def dset {β : Type} (d : Dict β) (k : Str) (v : β) : Dict β :=
  if d.any (fun p => p.1 = k) then
    d.map (fun p => if p.1 = k then (k, v) else p)
  else d ++ [(k, v)]

/-- `ForwardIndex`: language → word → (language → word). -/
abbrev Fwd := Dict (Dict (Dict Str))

/-- `forward = {name: {} for name in header}`. -/
def init_forward (header : List Str) : Fwd :=
  header.foldl (fun f name => dset f name []) []

/-- One iteration of the inner loop of `build_index_maps`:
    `d[lang_to] = r[i_to]`.  `r.getD i []` models `r[i]`; theorems about
    rows assume aligned rows (ragged rows would raise `IndexError` in
    Python). -/
def fillStep (r : List Str) (d : Dict Str) (pto : Nat × Str) : Dict Str :=
  dset d pto.2 (r.getD pto.1 [])

/-- Inner loop of `build_index_maps`:
    `for i_to, lang_to in enumerate(header): d[lang_to] = r[i_to]`. -/
def fillRow (header : List Str) (r : List Str) (d : Dict Str) : Dict Str :=
  header.enum.foldl (fillStep r) d

/-- One iteration of the outer loop of `build_index_maps`:
    `src = r[i_from]; if not src: continue;
     d = forward[lang_from].setdefault(src, {}); ...`. -/
def fromStep (header : List Str) (r : List Str) (forward : Fwd)
    (pfrom : Nat × Str) : Fwd :=
  let src := r.getD pfrom.1 []
  if src = [] then forward
  else
    let inner := (dget forward pfrom.2).getD []
    let d := (dget inner src).getD []
    dset forward pfrom.2 (dset inner src (fillRow header r d))

/-- Body of `build_index_maps` for one row:
    `for i_from, lang_from in enumerate(header): ...`. -/
def processRow (header : List Str) (forward : Fwd) (r : List Str) : Fwd :=
  header.enum.foldl (fromStep header r) forward

/-- `build_index_maps` from transliterate_app.py. -/
def build_index_maps (header : List Str) (rows : List (List Str)) : Fwd :=
  rows.foldl (processRow header) (init_forward header)

/-- Three-level lookup `forward[F][s][T]`, for stating properties. -/
def fwdLookup (forward : Fwd) (f s t : Str) : Option Str :=
  (dget forward f).bind (fun inner => (dget inner s).bind (fun e => dget e t))

/-- `space_free_columns`: a column qualifies iff every cell in it is empty
    or exactly one character long. -/
def space_free_columns (header : List Str) (rows : List (List Str)) : List Str :=
  (header.enum.filter (fun p =>
    rows.all (fun r =>
      let cell := r.getD p.1 []
      cell = [] || cell.length == 1))).map (fun p => p.2)

/-- `parse_csv`, modelled from the rows produced by `csv.reader`
    (the CSV lexing itself is Python stdlib, outside the embedded core):
    strip the header cells, strip data cells, drop rows whose cells are
    all blank.  `rows[0]` on an empty list would raise `IndexError` in
    Python; here it is `headD []` and theorems supply non-empty input. -/
def parse_csv (rows : List (List Str)) : List Str × List (List Str) :=
  let header := (rows.headD []).map strip
  let data_rows :=
    ((rows.drop 1).filter (fun r => r.any (fun c => strip c ≠ []))).map
      (fun r => r.map strip)
  (header, data_rows)

/-- `Transcriber._map_exact`. -/
def map_exact (forward : Fwd) (src_lang dst_lang token : Str) : Option Str :=
  if isPunctTok token then some token
  else
    match dget ((dget forward src_lang).getD []) token with
    | none => none                               -- missing key: `not entry`
    | some e => if e = [] then none else dget e dst_lang

/-- `Transcriber._has_exact_mapping`. -/
def has_exact_mapping (forward : Fwd) (lang token : Str) : Bool :=
  if isPunctTok token then true
  else ((dget forward lang).getD []).any (fun p => p.1 = token)

/-! ## Panes and application state (`Transcriber`) -/

/-- One pane: the language combo's current display label, the text
    buffer, the cursor position, and the focus flag.  `id` stands in for
    Python object identity (`pane is src_pane`, `self.panes.remove`). -/
structure Pane where
  id : Nat
  lang : Str
  text : Str
  cursor : Nat
  focus : Bool
  deriving DecidableEq, Repr

/-- The `Transcriber` state relevant to the engine. -/
structure AppState where
  language_sets : Dict (List (List Str))   -- name → csv.reader rows of that set
  header : List Str
  rows : List (List Str)
  forward : Fwd
  space_free : List Str
  display_to_real : Dict Str
  labels : List Str
  updating : Bool
  panes : List Pane
  nextId : Nat                             -- fresh-identity source for new panes
  deriving Repr

/-- `Transcriber._label_for`. -/
def label_for (space_free : List Str) (real_name : Str) : Str :=
  if real_name ∈ space_free then real_name ++ " (space-free)".toList
  else real_name

/-- `Transcriber._real_lang_of_pane`:
    `self.display_to_real.get(disp, disp)`. -/
def real_lang (s : AppState) (pane : Pane) : Str :=
  (dget s.display_to_real pane.lang).getD pane.lang

/-- `Transcriber._best_source_pane`: the focused pane, else the first
    pane with non-blank text, else the first pane, else none. -/
def best_source_pane (s : AppState) : Option Pane :=
  match s.panes.find? (fun p => p.focus) with
  | some p => some p
  | none =>
    match s.panes.find? (fun p => strip p.text ≠ []) with
    | some p => some p
    | none => s.panes.head?

/-- Per-token body of the destination loop in
    `Transcriber._translate_from_source`.  The final two branches of the
    Python code (`if src_is_typing and is_last and at_end`) produce the
    same bracketed token and are kept as in the source. -/
def translate_token (forward : Fwd) (src_lang dst_lang : Str)
    (src_is_typing at_end is_last : Bool) (tok : Str) : Str :=
  if isPunctTok tok then tok
  else if tok.head? = some '[' ∧ tok.getLast? = some ']' then
    let inside := (tok.drop 1).dropLast          -- tok[1:-1]
    match map_exact forward src_lang dst_lang inside with
    | some mapped => mapped
    | none => '[' :: inside ++ [']']
  else
    match map_exact forward src_lang dst_lang tok with
    | some mapped => mapped
    | none =>
      if src_is_typing && is_last && at_end then '[' :: tok ++ [']']
      else '[' :: tok ++ [']']

/-- The `dst_tokens` list built for one destination pane
    (`for i, tok in enumerate(src_tokens): ...`). -/
def dest_tokens (forward : Fwd) (src_lang dst_lang : Str)
    (src_is_typing at_end : Bool) (src_tokens : List Str) : List Str :=
  src_tokens.enum.map (fun p =>
    translate_token forward src_lang dst_lang src_is_typing at_end
      (p.1 == src_tokens.length - 1) p.2)

/-- `Transcriber._translate_from_source` (the SyncEngine `propagate`).
    Sets `updating`, rewrites every pane other than the source from the
    source pane's tokens, and clears `updating` (the `finally`).  There
    is no `updating` check at entry, exactly as in the source.  A pane
    keeping focus gets the toolkit cursor (document start) after
    `setPlainText`; an unfocused pane gets its saved cursor back, clamped
    to the new length. -/
def translate_from_source (s : AppState) (srcId : Nat) : AppState :=
  match s.panes.find? (fun p => p.id = srcId) with
  | none => { s with updating := false }   -- not reachable through the GUI wiring
  | some src =>
    let src_lang := real_lang s src
    let src_tokens := tokensFor s.space_free src.text src_lang
    let src_is_typing := src.focus
    let at_end := src.cursor == src.text.length
    let panes := s.panes.map (fun pane =>
      if pane.id = srcId then pane
      else
        let dst_lang := real_lang s pane
        let new_dst := joinFor s.space_free
          (dest_tokens s.forward src_lang dst_lang src_is_typing at_end src_tokens)
          dst_lang
        if new_dst = pane.text then pane
        else { pane with
               text := new_dst,
               cursor := if pane.focus then 0 else min pane.cursor new_dst.length })
    { s with panes := panes, updating := false }

/-- `Transcriber._on_text_changed`: the only guard of the text-changed
    trigger. -/
def on_text_changed (s : AppState) (pid : Nat) : AppState :=
  if s.updating then s else translate_from_source s pid

/-- `Transcriber._on_pane_lang_changed`: calls propagate directly,
    without consulting `updating`. -/
def on_pane_lang_changed (s : AppState) (pid : Nat) : AppState :=
  translate_from_source s pid

/-- `Transcriber._commit_brackets` (focus-loss commit): guard on
    `updating`, rewrite unmapped plain tokens of the pane's own buffer to
    bracketed form, re-join, update text and clamped cursor if changed,
    then propagate from this pane; the `finally` clears `updating`. -/
def commit_brackets (s : AppState) (pid : Nat) : AppState :=
  if s.updating then s
  else
    let s1 := { s with updating := true }
    match s1.panes.find? (fun p => p.id = pid) with
    | none => { s1 with updating := false }
    | some pane =>
      let lang := real_lang s1 pane
      let toks := tokensFor s1.space_free pane.text lang
      let committed := toks.map (fun tok =>
        if isPunctTok tok then tok
        else if tok.head? = some '[' ∧ tok.getLast? = some ']' then tok
        else if has_exact_mapping s1.forward lang tok then tok
        else '[' :: tok ++ [']'])
      let new_text := joinFor s1.space_free committed lang
      let s2 :=
        if new_text = pane.text then s1
        else { s1 with panes := s1.panes.map (fun q =>
                 if q.id = pid then
                   { q with text := new_text,
                            cursor := min q.cursor new_text.length }
                 else q) }
      let s3 := translate_from_source s2 pid
      { s3 with updating := false }

/-- `Transcriber._on_add_pane`.  A rejected add (`len(self.panes) >=
    len(self.labels)`) only shows a message box and returns.  The chosen
    label is the first one not currently used, defaulting to
    `labels[0]`.  The combo's `setCurrentText` happens before the signal
    is connected, so no language-changed propagation fires here; the
    autofill propagates from the best source pane when a second pane
    exists. -/
def on_add_pane (s : AppState) : AppState :=
  if s.labels.length ≤ s.panes.length then s
  else
    let used := s.panes.map (fun p => p.lang)
    let chosen :=
      match s.labels.find? (fun lab => !(used.contains lab)) with
      | some lab => lab
      | none => s.labels.headD []          -- chosen_label = self.labels[0]
    let pane : Pane :=
      { id := s.nextId, lang := chosen, text := [], cursor := 0, focus := false }
    let s1 := { s with panes := s.panes ++ [pane], nextId := s.nextId + 1 }
    if 1 < s1.panes.length then
      match best_source_pane s1 with
      | some src => translate_from_source s1 src.id
      | none => s1
    else s1

/-- `Transcriber._close_pane`: keep at least one pane; ignore a stale
    pane; otherwise remove (Python `list.remove`: first occurrence) and
    retranslate from the recomputed best source. -/
def close_pane (s : AppState) (pid : Nat) : AppState :=
  if s.panes.length ≤ 1 then s
  else if !(s.panes.any (fun p => p.id = pid)) then s
  else
    let s1 := { s with panes := s.panes.eraseP (fun p => p.id = pid) }
    match best_source_pane s1 with
    | some src => translate_from_source s1 src.id
    | none => s1

/-- One step of the pane-remapping loop in `Transcriber._on_change_set`:
    pane `k` keeps its label if still available, else picks the first
    label not used by any *other* pane (earlier panes already remapped),
    else `labels[0]`. -/
def remap_one (labels : List Str) (panes : List Pane) (k : Nat) : List Pane :=
  match panes.get? k with
  | none => panes
  | some p =>
    if p.lang ∈ labels then panes
    else
      let used := (panes.enum.filter (fun q => q.1 ≠ k)).map (fun q => q.2.lang)
      let pick := (labels.find? (fun lab => !(used.contains lab))).getD (labels.headD [])
      panes.set k { p with lang := pick }

/-- The `for p in self.panes` remapping loop of
    `Transcriber._on_change_set` (signals blocked, so no propagation per
    step). -/
def remap_panes (labels : List Str) (panes : List Pane) : List Pane :=
  (List.range panes.length).foldl (remap_one labels) panes

/-- `Transcriber._on_change_set`: parse the selected set, rebuild the
    index, classification and labels wholesale, remap pane languages,
    and propagate from the best source pane.  A name absent from
    `language_sets` would be a `KeyError` in Python (the combo only
    offers loaded names); modelled as a no-op. -/
def on_change_set (s : AppState) (set_name : Str) : AppState :=
  match dget s.language_sets set_name with
  | none => s
  | some raw =>
    let parsed := parse_csv raw
    let header := parsed.1
    let rows := parsed.2
    let forward := build_index_maps header rows
    let space_free := space_free_columns header rows
    let labels := header.map (label_for space_free)
    let display_to_real := (labels.zip header).foldl (fun d pr => dset d pr.1 pr.2) []
    let s1 := { s with header := header, rows := rows, forward := forward,
                       space_free := space_free, display_to_real := display_to_real,
                       labels := labels }
    let s2 := { s1 with panes := remap_panes labels s1.panes }
    match best_source_pane s2 with
    | some src => translate_from_source s2 src.id
    | none => s2

/-! ## Proof-side devices: canonical-token predicate and a direct form of
    the whitespace join -/

/-- A token as produced by the tokenizers: non-empty, whitespace-free,
    and a fixed point of `split_trailing_punct`. -/
def goodTok (t : Str) : Prop :=
  t ≠ [] ∧ (∀ c ∈ t, isWs c = false) ∧ split_trailing_punct t = [t]

/-- Direct (accumulator-free) form of the whitespace join: `needSpace`
    records whether the previous piece did not end in a space. -/
def emit (needSpace : Bool) : List Str → Str
  | [] => []
  | tok :: rest =>
    if isPunctTok tok then
      tok ++ (if rest = [] then [] else [' ']) ++ emit false rest
    else
      (if needSpace then [' '] else []) ++ tok ++ emit true rest

/-- Whether the Python word branch would insert a space given the
    reversed pieces accumulator: `pieces and not pieces[-1].endswith(" ")`. -/
def needSpace (acc : List Str) : Bool :=
  match acc with
  | [] => false
  | p :: _ => if p.getLast? = some ' ' then false else true

/-! ## Splitter lemmas -/

theorem flatten_map_singleton (l : Str) : (l.map (fun c => [c])).flatten = l := by
  induction l with
  | nil => rfl
  | cons c cs ih => simp [ih]

/-- `split_trailing_punct` only rearranges: its pieces concatenate back
    to the input token. -/
theorem stp_flatten (t : Str) : (split_trailing_punct t).flatten = t := by
  unfold split_trailing_punct
  by_cases h0 : t = []
  · simp [h0]
  · rw [if_neg h0]
    by_cases hb : t.head? = some '[' ∧ t.getLast? = some ']'
    · rw [if_pos hb]; simp
    · rw [if_neg hb]
      simp only []
      have hsplit : (t.reverse.dropWhile isPunct).reverse
          ++ (t.reverse.takeWhile isPunct).reverse = t := by
        rw [← List.reverse_append, List.takeWhile_append_dropWhile, List.reverse_reverse]
      have key : ∀ hd tl : Str,
          ((if hd = [] then [] else [hd]) ++ tl.map (fun c => [c])).flatten = hd ++ tl := by
        intro hd tl
        by_cases hh : hd = [] <;> simp [hh, flatten_map_singleton]
      rw [key]
      exact hsplit

theorem punct_not_ws (c : Char) (h : isPunct c = true) : isWs c = false := by
  simp [isPunct, PUNCT] at h
  rcases h with rfl | rfl | rfl | rfl | rfl | rfl <;> rfl

theorem punct_ne_lbracket (c : Char) (h : isPunct c = true) : ¬ c = '[' := by
  simp [isPunct, PUNCT] at h
  rcases h with rfl | rfl | rfl | rfl | rfl | rfl <;> decide

theorem punct_ne_rbracket (c : Char) (h : isPunct c = true) : ¬ c = ']' := by
  simp [isPunct, PUNCT] at h
  rcases h with rfl | rfl | rfl | rfl | rfl | rfl <;> decide

/-- A non-empty token whose last character is not punctuation is a fixed
    point of the splitter. -/
theorem stp_stable_of_getLast (t : Str) (h0 : t ≠ [])
    (hl : ∀ c, t.getLast? = some c → isPunct c = false) :
    split_trailing_punct t = [t] := by
  unfold split_trailing_punct
  rw [if_neg h0]
  by_cases hb : t.head? = some '[' ∧ t.getLast? = some ']'
  · rw [if_pos hb]
  · rw [if_neg hb]
    obtain ⟨c, cs, hrev⟩ : ∃ c cs, t.reverse = c :: cs := by
      cases hr : t.reverse with
      | nil =>
        exact absurd (by simpa using congrArg List.reverse hr) h0
      | cons c cs => exact ⟨c, cs, rfl⟩
    have hc : isPunct c = false := hl c (by rw [← List.head?_reverse, hrev]; rfl)
    rw [hrev]
    rw [List.takeWhile_cons_of_neg (by simp [hc]), List.dropWhile_cons_of_neg (by simp [hc])]
    simp [← hrev, h0]

/-- A single punctuation character is a fixed point of the splitter. -/
theorem stp_punct_singleton (c : Char) (h : isPunct c = true) :
    split_trailing_punct [c] = [[c]] := by
  unfold split_trailing_punct
  rw [if_neg (by simp)]
  rw [if_neg (by rintro ⟨h1, h2⟩; exact punct_ne_lbracket c h (by simpa using h1))]
  simp [List.takeWhile, List.dropWhile, h]

/-- Every piece produced by the splitter from a non-empty whitespace-free
    chunk is a canonical token. -/
theorem stp_mem_good (t : Str) (h0 : t ≠ []) (hws : ∀ c ∈ t, isWs c = false) :
    ∀ u ∈ split_trailing_punct t, goodTok u := by
  intro u hu
  by_cases hb : t.head? = some '[' ∧ t.getLast? = some ']'
  · have heq : split_trailing_punct t = [t] := by
      unfold split_trailing_punct
      rw [if_neg h0, if_pos hb]
    rw [heq] at hu
    simp at hu
    subst hu
    exact ⟨h0, hws, heq⟩
  · have heq : split_trailing_punct t =
        (if (t.reverse.dropWhile isPunct).reverse = [] then []
         else [(t.reverse.dropWhile isPunct).reverse])
        ++ (t.reverse.takeWhile isPunct).reverse.map (fun c => [c]) := by
      unfold split_trailing_punct
      rw [if_neg h0, if_neg hb]
    rw [heq] at hu
    rcases List.mem_append.1 hu with hleft | hright
    · by_cases hh : (t.reverse.dropWhile isPunct).reverse = []
      · rw [hh] at hleft; simp at hleft
      · rw [if_neg hh] at hleft
        simp at hleft
        subst hleft
        refine ⟨hh, ?_, ?_⟩
        · intro c hc
          apply hws
          have : c ∈ t.reverse.dropWhile isPunct := by simpa using hc
          have := (List.dropWhile_sublist (l := t.reverse) isPunct).subset this
          simpa using this
        · apply stp_stable_of_getLast _ hh
          intro c hc
          have hrr : (t.reverse.dropWhile isPunct).reverse.getLast? =
              (t.reverse.dropWhile isPunct).head? := by
            rw [← List.head?_reverse, List.reverse_reverse]
          rw [hrr] at hc
          have := List.head?_dropWhile_not isPunct t.reverse
          rw [hc] at this
          exact this
    · simp only [List.mem_map] at hright
      obtain ⟨c, hc, rfl⟩ := hright
      have hcp : isPunct c = true := by
        have : c ∈ t.reverse.takeWhile isPunct := by simpa using hc
        exact List.mem_takeWhile_imp this
      exact ⟨by simp, by simp [punct_not_ws c hcp], stp_punct_singleton c hcp⟩

/-! ## Space-free round trip: the scan only re-segments the text -/

theorem sfScan_flatten (text : Str) : (sfScan text).flatten = text := by
  induction text using sfScan.induct with
  | case1 => simp [sfScan]
  | case2 cs hfind => simp [sfScan, hfind]
  | case3 cs j hfind ih => simp [sfScan, hfind, ih]
  | case4 c cs hc hcjk ih => simp [sfScan, hc, hcjk, ih]
  | case5 c cs hc hcjk ih =>
    simp [sfScan, hc, hcjk, ih, stp_flatten, List.takeWhile_append_dropWhile]

theorem flatten_filter_ne_nil (l : List Str) :
    (l.filter (fun t => t ≠ [])).flatten = l.flatten := by
  induction l with
  | nil => rfl
  | cons t ts ih =>
    simp only [ne_eq, decide_not] at ih ⊢
    by_cases ht : t = [] <;> simp [List.filter_cons, ht, ih]

/-- In space-free mode, join after tokenize is the identity. -/
theorem sf_join_tokens (text : Str) : join_sf (tokens_space_free text) = text := by
  rw [join_sf, tokens_space_free, flatten_filter_ne_nil, sfScan_flatten]

/-! ## Whitespace join: accumulator form equals the direct form -/

theorem goodTok_getLast_ne_space (t : Str) (hg : goodTok t) :
    ¬ t.getLast? = some ' ' := by
  obtain ⟨h0, hws, _⟩ := hg
  intro hc
  have h1 := List.getLast?_eq_getLast_of_ne_nil h0
  rw [h1, Option.some_inj] at hc
  have hmem : ' ' ∈ t := by rw [← hc]; exact List.getLast_mem h0
  have := hws ' ' hmem
  simp [isWs] at this

theorem joinWsAux_emit (ts : List Str) : ∀ acc : List Str, (∀ t ∈ ts, goodTok t) →
    (joinWsAux acc ts).reverse.flatten
      = acc.reverse.flatten ++ emit (needSpace acc) ts := by
  induction ts with
  | nil => intro acc hg; simp [joinWsAux, emit]
  | cons t rest ih =>
    intro acc hg
    simp only [joinWsAux]
    by_cases hp : isPunctTok t
    · rw [if_pos hp]
      rw [ih _ (fun u hu => hg u (by simp [hu]))]
      by_cases hr : rest = []
      · subst hr
        simp [emit, hp, needSpace]
      · rw [if_neg hr]
        simp [emit, hp, needSpace, hr]
    · rw [if_neg hp]
      have hgt : goodTok t := hg t (by simp)
      rw [ih _ (fun u hu => hg u (by simp [hu]))]
      have hns : ∀ acc1 : List Str, needSpace (t :: acc1) = true := by
        intro acc1
        simp [needSpace, goodTok_getLast_ne_space t hgt]
      rw [hns]
      rw [emit]
      rw [if_neg (by simp [hp])]
      match acc with
      | [] => simp [needSpace]
      | p :: ps =>
        by_cases hpl : p.getLast? = some ' '
        · simp [hpl, needSpace]
        · simp [hpl, needSpace]

/-- The first character of a non-empty emitted text is the first
    character of the first token, hence not whitespace. -/
theorem emit_head_not_ws (ts : List Str) (h0 : ts ≠ [])
    (hg : ∀ t ∈ ts, goodTok t) :
    ∃ c, (emit false ts).head? = some c ∧ isWs c = false := by
  match ts with
  | t :: rest =>
    have hgt : goodTok t := hg t (by simp)
    obtain ⟨c, cs, hC⟩ : ∃ c cs, t = c :: cs := by
      cases t with
      | nil => exact absurd rfl hgt.1
      | cons c cs => exact ⟨c, cs, rfl⟩
    have hcw : isWs c = false := hgt.2.1 c (by rw [hC]; simp)
    refine ⟨c, ?_, hcw⟩
    rw [emit]
    by_cases hp : isPunctTok t
    · rw [if_pos hp]
      rw [hC]
      simp
    · rw [if_neg hp]
      rw [hC]
      simp

theorem emit_getLast_not_ws (ts : List Str) (h0 : ts ≠ [])
    (hg : ∀ t ∈ ts, goodTok t) :
    ∀ b, ∃ c, (emit b ts).getLast? = some c ∧ isWs c = false := by
  induction ts with
  | nil => exact absurd rfl h0
  | cons t rest ih =>
    intro b
    have hgt : goodTok t := hg t (by simp)
    by_cases hr : rest = []
    · subst hr
      obtain ⟨c, hc⟩ : ∃ c, t.getLast? = some c := by
        cases ht : t.getLast? with
        | none => exact absurd (by simpa using ht) hgt.1
        | some c => exact ⟨c, rfl⟩
      have hcw : isWs c = false := hgt.2.1 c (by
        have h1 := List.getLast?_eq_getLast_of_ne_nil hgt.1
        rw [h1, Option.some_inj] at hc
        rw [← hc]; exact List.getLast_mem hgt.1)
      rw [emit]
      by_cases hp : isPunctTok t
      · rw [if_pos hp]
        refine ⟨c, ?_, hcw⟩
        simp [emit, hc]
      · rw [if_neg hp]
        refine ⟨c, ?_, hcw⟩
        cases b
        · simp [emit, hc]
        · have hsp : ((if true then [' '] else []) ++ t ++ emit true ([] : List Str))
              = [' '] ++ t := by simp [emit]
          rw [hsp, List.getLast?_append_of_ne_nil _ hgt.1]
          exact hc
    · obtain ⟨c, hc, hcw⟩ := ih hr (fun u hu => hg u (by simp [hu])) true
      obtain ⟨c2, hc2, hcw2⟩ := ih hr (fun u hu => hg u (by simp [hu])) false
      have hne : ∀ b2, emit b2 rest ≠ [] := by
        intro b2
        cases b2
        · intro hcon; rw [hcon] at hc2; simp at hc2
        · intro hcon; rw [hcon] at hc; simp at hc
      rw [emit]
      by_cases hp : isPunctTok t
      · rw [if_pos hp]
        refine ⟨c2, ?_, hcw2⟩
        simp [List.getLast?_append, hc2]
      · rw [if_neg hp]
        refine ⟨c, ?_, hcw⟩
        simp [List.getLast?_append, hc]

/-- `str.strip()` leaves a string alone when neither end is whitespace. -/
theorem strip_eq_self (l : Str)
    (hh : ∀ c, l.head? = some c → isWs c = false)
    (hl : ∀ c, l.getLast? = some c → isWs c = false) : strip l = l := by
  have h1 : l.dropWhile isWs = l := by
    cases l with
    | nil => rfl
    | cons c cs => exact List.dropWhile_cons_of_neg (by simp [hh c rfl])
  rw [strip, h1]
  have h2 : l.reverse.dropWhile isWs = l.reverse := by
    cases hr : l.reverse with
    | nil => rfl
    | cons c cs =>
      refine List.dropWhile_cons_of_neg ?_
      have : l.getLast? = some c := by rw [← List.head?_reverse, hr]; rfl
      simp [hl c this]
  rw [h2, List.reverse_reverse]

/-- On canonical tokens the Python accumulator join equals the direct
    `emit` form. -/
theorem join_ws_eq_emit (ts : List Str) (hg : ∀ t ∈ ts, goodTok t) :
    join_ws ts = emit false ts := by
  rw [join_ws, joinWsAux_emit ts [] hg]
  simp only [List.reverse_nil, List.flatten_nil, List.nil_append, needSpace]
  by_cases h0 : ts = []
  · subst h0; rfl
  · obtain ⟨c, hC, hcw⟩ := emit_head_not_ws ts h0 hg
    obtain ⟨d, hd, hdw⟩ := emit_getLast_not_ws ts h0 hg false
    apply strip_eq_self
    · intro e he
      rw [hC, Option.some_inj] at he
      rw [← he]
      exact hcw
    · intro e he
      rw [hd, Option.some_inj] at he
      rw [← he]
      exact hdw

/-! ## `wsSplit` lemmas -/

theorem takeWhile_append_all {p : Char → Bool} (a b : List Char)
    (h : ∀ c ∈ a, p c = true) :
    (a ++ b).takeWhile p = a ++ b.takeWhile p := by
  induction a with
  | nil => simp
  | cons c cs ih =>
    simp [List.takeWhile_cons, h c (by simp), ih (fun x hx => h x (by simp [hx]))]

theorem dropWhile_append_all {p : Char → Bool} (a b : List Char)
    (h : ∀ c ∈ a, p c = true) :
    (a ++ b).dropWhile p = b.dropWhile p := by
  induction a with
  | nil => simp
  | cons c cs ih =>
    simp [List.dropWhile_cons, h c (by simp), ih (fun x hx => h x (by simp [hx]))]

theorem takeWhile_all {p : Char → Bool} (a : List Char)
    (h : ∀ c ∈ a, p c = true) : a.takeWhile p = a := by
  have := takeWhile_append_all a [] h
  simpa using this

theorem dropWhile_all {p : Char → Bool} (a : List Char)
    (h : ∀ c ∈ a, p c = true) : a.dropWhile p = [] := by
  have := dropWhile_append_all a [] h
  simpa using this

/-- A non-empty whitespace-free text is a single `str.split()` chunk. -/
theorem wsSplit_chunk (chunk : Str) (h0 : chunk ≠ [])
    (hws : ∀ c ∈ chunk, isWs c = false) : wsSplit chunk = [chunk] := by
  match chunk with
  | c :: cs =>
    rw [wsSplit]
    rw [dif_neg (by simp [hws c (by simp)])]
    rw [takeWhile_all _ (fun x hx => by simp [hws x hx])]
    rw [dropWhile_all _ (fun x hx => by simp [hws x hx])]
    simp [wsSplit]

/-- A chunk followed by a space splits into the chunk and the split of
    the remainder. -/
theorem wsSplit_chunk_append (chunk : Str) (l : Str) (h0 : chunk ≠ [])
    (hws : ∀ c ∈ chunk, isWs c = false) :
    wsSplit (chunk ++ ' ' :: l) = chunk :: wsSplit l := by
  match chunk with
  | c :: cs =>
    rw [List.cons_append, wsSplit]
    rw [dif_neg (by simp [hws c (by simp)])]
    rw [show (c :: (cs ++ ' ' :: l)) = (c :: cs) ++ ' ' :: l from rfl]
    rw [takeWhile_append_all _ _ (fun x hx => by simp [hws x hx])]
    rw [dropWhile_append_all _ _ (fun x hx => by simp [hws x hx])]
    have hsp : isWs ' ' = true := by simp [isWs]
    rw [List.takeWhile_cons_of_neg (by simp [hsp]), List.dropWhile_cons_of_neg (by simp [hsp])]
    rw [wsSplit]
    rw [dif_pos hsp]
    simp

theorem stable_last_not_punct (w : Str) (hg : goodTok w) (hp : isPunctTok w = false) :
    ∀ c, w.getLast? = some c → isPunct c = false := by
  intro c hc
  obtain ⟨h0, hws, hst⟩ := hg
  by_cases hb : w.head? = some '[' ∧ w.getLast? = some ']'
  · have hcr : c = ']' := by
      rw [hb.2, Option.some_inj] at hc
      exact hc.symm
    rw [hcr]
    decide
  · by_contra hcpn
    have hcp : isPunct c = true := by
      cases hcc : isPunct c
      · exact absurd hcc hcpn
      · rfl
    obtain ⟨rest, hrev⟩ : ∃ rest, w.reverse = c :: rest := by
      cases hr : w.reverse with
      | nil => exact absurd (by simpa using congrArg List.reverse hr) h0
      | cons d ds =>
        have hcd : c = d := by
          have hgl : w.getLast? = some d := by rw [← List.head?_reverse, hr]; rfl
          rw [hc, Option.some_inj] at hgl
          exact hgl
        subst hcd
        exact ⟨ds, rfl⟩
    have heq : ([w] : List Str) =
        (if (w.reverse.dropWhile isPunct).reverse = [] then []
         else [(w.reverse.dropWhile isPunct).reverse])
        ++ (w.reverse.takeWhile isPunct).reverse.map (fun x => [x]) := by
      rw [← hst]
      unfold split_trailing_punct
      rw [if_neg h0, if_neg hb]
    rw [hrev] at heq
    rw [List.takeWhile_cons_of_pos (by simp [hcp])] at heq
    by_cases hh : ((c :: rest).dropWhile isPunct).reverse = []
    · rw [hh, if_pos rfl, List.nil_append] at heq
      have hlen := congrArg List.length heq
      simp only [List.length_map, List.length_reverse, List.length_cons,
        List.length_nil] at hlen
      have htw : rest.takeWhile isPunct = [] := by
        have hzero : (rest.takeWhile isPunct).length = 0 := by omega
        exact List.eq_nil_of_length_eq_zero hzero
      rw [htw] at heq
      simp at heq
      rw [heq] at hp
      simp [isPunctTok, hcp] at hp
    · rw [if_neg hh] at heq
      have hlen := congrArg List.length heq
      simp only [List.length_map, List.length_reverse, List.length_cons,
        List.length_nil, List.length_append] at hlen
      omega

theorem isPunctTok_iff (t : Str) : isPunctTok t = true ↔ ∃ c, t = [c] ∧ isPunct c = true := by
  match t with
  | [] => simp [isPunctTok]
  | [c] => simp [isPunctTok]
  | c :: d :: ds => simp [isPunctTok]

/-- The splitter separates a canonical word token from one attached
    trailing punctuation character. -/
theorem stp_word_punct (w : Str) (c : Char) (hg : goodTok w)
    (hpw : isPunctTok w = false) (hcp : isPunct c = true) :
    split_trailing_punct (w ++ [c]) = [w, [c]] := by
  have h0 : w ≠ [] := hg.1
  have hne : w ++ [c] ≠ [] := by simp
  have hlast : (w ++ [c]).getLast? = some c := by simp
  have hb : ¬ ((w ++ [c]).head? = some '[' ∧ (w ++ [c]).getLast? = some ']') := by
    rintro ⟨h1, h2⟩
    rw [hlast, Option.some_inj] at h2
    exact punct_ne_rbracket c hcp h2
  unfold split_trailing_punct
  rw [if_neg hne, if_neg hb]
  have hrev : (w ++ [c]).reverse = c :: w.reverse := by simp
  rw [hrev]
  have htww : w.reverse.takeWhile isPunct = [] := by
    cases hr : w.reverse with
    | nil => rfl
    | cons d ds =>
      have hd : w.getLast? = some d := by rw [← List.head?_reverse, hr]; rfl
      have := stable_last_not_punct w hg hpw d hd
      exact List.takeWhile_cons_of_neg (by simp [this])
  have hdww : w.reverse.dropWhile isPunct = w.reverse := by
    cases hr : w.reverse with
    | nil => rfl
    | cons d ds =>
      have hd : w.getLast? = some d := by rw [← List.head?_reverse, hr]; rfl
      have := stable_last_not_punct w hg hpw d hd
      exact List.dropWhile_cons_of_neg (by simp [this])
  rw [List.takeWhile_cons_of_pos (by simp [hcp]), List.dropWhile_cons_of_pos (by simp [hcp])]
  rw [htww, hdww]
  simp [h0]

theorem wsSplit_chunks (l : Str) :
    ∀ ch ∈ wsSplit l, ch ≠ [] ∧ ∀ c ∈ ch, isWs c = false := by
  induction l using wsSplit.induct with
  | case1 c cs h ih =>
    intro ch hch
    rw [wsSplit, dif_pos h] at hch
    exact ih ch hch
  | case2 c cs h ih =>
    intro ch hch
    rw [wsSplit, dif_neg h] at hch
    rcases List.mem_cons.1 hch with hch | hch
    · subst hch
      constructor
      · rw [List.takeWhile_cons_of_pos (by simp [h])]
        simp
      · intro x hx
        have := List.mem_takeWhile_imp hx
        simpa using this
    · exact ih ch hch
  | case3 =>
    intro ch hch
    simp [wsSplit] at hch

theorem tokens_ws_good (text : Str) : ∀ t ∈ tokens_ws text, goodTok t := by
  intro t ht
  rw [tokens_ws] at ht
  by_cases h : strip text = []
  · rw [if_pos h] at ht
    simp at ht
  · rw [if_neg h] at ht
    obtain ⟨ch, hch, hmem⟩ := List.mem_flatMap.1 ht
    obtain ⟨hne, hws⟩ := wsSplit_chunks _ ch hch
    exact stp_mem_good ch hne hws t hmem

/-- Core of the whitespace round trip: re-splitting the emitted text of a
    canonical token list recovers exactly that list. -/
theorem emit_round_core : ∀ n (ts : List Str), ts.length ≤ n →
    (∀ t ∈ ts, goodTok t) →
    (wsSplit (emit false ts)).flatMap split_trailing_punct = ts := by
  intro n
  induction n with
  | zero =>
    intro ts hlen hg
    have h0 : ts = [] := List.eq_nil_of_length_eq_zero (Nat.le_zero.1 hlen)
    subst h0
    simp [emit, wsSplit]
  | succ n ih =>
    intro ts hlen hg
    match ts with
    | [] => simp [emit, wsSplit]
    | t :: rest =>
      have hgt : goodTok t := hg t (by simp)
      have hwst : ∀ c ∈ t, isWs c = false := hgt.2.1
      by_cases hp : isPunctTok t
      · obtain ⟨c, htc, hcp⟩ := (isPunctTok_iff t).1 hp
        subst htc
        by_cases hr : rest = []
        · subst hr
          rw [show emit false [[c]] = [c] by simp [emit, hp]]
          rw [wsSplit_chunk [c] (by simp) (by simpa using hwst)]
          simp [hgt.2.2]
        · rw [show emit false ([c] :: rest) = [c] ++ ' ' :: emit false rest by
            simp [emit, hp, hr]]
          rw [wsSplit_chunk_append [c] _ (by simp) (by simpa using hwst)]
          rw [List.flatMap_cons]
          rw [hgt.2.2]
          rw [ih rest (by simp at hlen; omega)
            (fun u hu => hg u (by simp [hu]))]
          rfl
      · match rest with
        | [] =>
          rw [show emit false [t] = t by simp [emit, hp]]
          rw [wsSplit_chunk t hgt.1 hwst]
          simp [hgt.2.2]
        | u :: rest2 =>
          have hgu : goodTok u := hg u (by simp)
          by_cases hq : isPunctTok u
          · obtain ⟨c, huc, hcp⟩ := (isPunctTok_iff u).1 hq
            subst huc
            by_cases hr2 : rest2 = []
            · subst hr2
              rw [show emit false [t, [c]] = t ++ [c] by simp [emit, hp, hq]]
              rw [wsSplit_chunk (t ++ [c]) (by simp [hgt.1])
                (by intro x hx
                    rcases List.mem_append.1 hx with hx | hx
                    · exact hwst x hx
                    · simp at hx
                      rw [hx]
                      exact punct_not_ws c hcp)]
              simp only [List.flatMap_cons, List.flatMap_nil, List.append_nil]
              rw [stp_word_punct t c hgt (by simpa using hp) hcp]
            · rw [show emit false (t :: [c] :: rest2)
                  = (t ++ [c]) ++ ' ' :: emit false rest2 by
                simp [emit, hp, hq, hr2]]
              rw [wsSplit_chunk_append (t ++ [c]) _ (by simp [hgt.1])
                (by intro x hx
                    rcases List.mem_append.1 hx with hx | hx
                    · exact hwst x hx
                    · simp at hx
                      rw [hx]
                      exact punct_not_ws c hcp)]
              rw [List.flatMap_cons]
              rw [stp_word_punct t c hgt (by simpa using hp) hcp]
              rw [ih rest2 (by simp at hlen; omega)
                (fun v hv => hg v (by simp [hv]))]
              rfl
          · rw [show emit false (t :: u :: rest2) = t ++ ' ' :: emit false (u :: rest2) by
              simp [emit, hp, hq]]
            rw [wsSplit_chunk_append t _ hgt.1 hwst]
            rw [List.flatMap_cons]
            rw [hgt.2.2]
            rw [ih (u :: rest2) (by simp at hlen ⊢; omega)
              (fun v hv => hg v (by simp [hv]))]
            rfl

/-- Tokenizing the canonical rendering of a canonical token list gives
    back the list (whitespace mode). -/
theorem tokens_ws_emit (ts : List Str) (hg : ∀ t ∈ ts, goodTok t) :
    tokens_ws (emit false ts) = ts := by
  by_cases h0 : ts = []
  · subst h0
    simp [tokens_ws, emit, strip]
  · obtain ⟨c, hC, hcw⟩ := emit_head_not_ws ts h0 hg
    obtain ⟨d, hd, hdw⟩ := emit_getLast_not_ws ts h0 hg false
    have hstrip : strip (emit false ts) = emit false ts := by
      apply strip_eq_self
      · intro e he
        rw [hC, Option.some_inj] at he
        rw [← he]
        exact hcw
      · intro e he
        rw [hd, Option.some_inj] at he
        rw [← he]
        exact hdw
    have hene : emit false ts ≠ [] := by
      intro hcon
      rw [hcon] at hC
      simp at hC
    rw [tokens_ws, hstrip, if_neg hene]
    exact emit_round_core ts.length ts le_rfl hg

/-- Whitespace-mode idempotence of join-after-tokenize. -/
theorem ws_idem (S : Str) :
    join_ws (tokens_ws (join_ws (tokens_ws S))) = join_ws (tokens_ws S) := by
  have hg : ∀ t ∈ tokens_ws S, goodTok t := tokens_ws_good S
  have h1 : join_ws (tokens_ws S) = emit false (tokens_ws S) :=
    join_ws_eq_emit _ hg
  rw [h1, tokens_ws_emit _ hg]
  exact h1

/-- C2: for every language of the active table (whitespace or space-free
    mode) and every input string `S`, join-after-tokenize is idempotent:
    with `T = join(tokenize(S, L), L)`, `join(tokenize(T, L), L) = T`. -/
theorem c2_join_tokenize_idempotent (space_free : List Str) (lang : Str) (S : Str) :
    joinFor space_free
      (tokensFor space_free (joinFor space_free (tokensFor space_free S lang) lang) lang)
      lang
      = joinFor space_free (tokensFor space_free S lang) lang := by
  by_cases h : lang ∈ space_free
  · simp only [joinFor, tokensFor, if_pos h]
    rw [sf_join_tokens]
  · simp only [joinFor, tokensFor, if_neg h]
    exact ws_idem S

/-! ## Space-free tokenizer: the branch equations of the claim -/

theorem stp_ne_nil (t : Str) : ∀ u ∈ split_trailing_punct t, u ≠ [] := by
  intro u hu
  unfold split_trailing_punct at hu
  by_cases h0 : t = []
  · rw [if_pos h0] at hu
    simp at hu
  · rw [if_neg h0] at hu
    by_cases hb : t.head? = some '[' ∧ t.getLast? = some ']'
    · rw [if_pos hb] at hu
      simp at hu
      subst hu
      exact h0
    · rw [if_neg hb] at hu
      rcases List.mem_append.1 hu with hl | hr
      · by_cases hh : (t.reverse.dropWhile isPunct).reverse = []
        · rw [hh] at hl
          simp at hl
        · rw [if_neg hh] at hl
          simp at hl
          subst hl
          exact hh
      · simp at hr
        obtain ⟨c, hc, rfl⟩ := hr
        simp

theorem findIdx_no_close (l : Str) (h : ']' ∉ l) :
    l.findIdx? (fun x => x = ']') = none := by
  induction l with
  | nil => rfl
  | cons c cs ih =>
    have hc : ¬ c = ']' := fun hh => h (by simp [hh])
    simp [List.findIdx?_cons, hc, ih (fun hm => h (by simp [hm]))]

theorem findIdx_close (pre post : Str) (h : ']' ∉ pre) :
    (pre ++ ']' :: post).findIdx? (fun x => x = ']') = some pre.length := by
  induction pre with
  | nil => simp [List.findIdx?_cons]
  | cons c cs ih =>
    have hc : ¬ c = ']' := fun hh => h (by simp [hh])
    rw [List.cons_append]
    simp [List.findIdx?_cons, hc, ih (fun hm => h (by simp [hm]))]

/-- Bracket token: a `[` followed by close-bracket-free content and `]`
    becomes one token running to that `]` inclusive. -/
theorem sf_bracket_eq (pre post : Str) (h : ']' ∉ pre) :
    tokens_space_free ('[' :: pre ++ ']' :: post)
      = ('[' :: pre ++ [']']) :: tokens_space_free post := by
  have htake : (pre ++ ']' :: post).take (pre.length + 1) = pre ++ [']'] := by
    rw [List.take_append_eq_append_take]
    simp
  have hdrop : (pre ++ ']' :: post).drop (pre.length + 1) = post := by
    rw [List.drop_append_eq_append_drop]
    simp
  rw [tokens_space_free, tokens_space_free]
  rw [show ('[' :: pre ++ ']' :: post) = '[' :: (pre ++ ']' :: post) from rfl]
  rw [sfScan]
  rw [if_pos rfl]
  simp only [findIdx_close pre post h, htake, hdrop]
  rw [List.filter_cons]
  simp

/-- Unterminated bracket: the remainder becomes one terminal token. -/
theorem sf_unterminated_eq (rest : Str) (h : ']' ∉ rest) :
    tokens_space_free ('[' :: rest) = ['[' :: rest] := by
  rw [tokens_space_free, sfScan, if_pos rfl]
  simp only [findIdx_no_close rest h]
  simp

/-- A CJK code point is its own single-character token. -/
theorem sf_cjk_eq (c : Char) (cs : Str) (h : isCJK c = true) :
    tokens_space_free (c :: cs) = [c] :: tokens_space_free cs := by
  have hnb : ¬ c = '[' := by
    intro hc
    rw [hc] at h
    simp [isCJK] at h
  rw [tokens_space_free, sfScan, if_neg hnb, if_pos h]
  rw [List.filter_cons]
  simp [tokens_space_free]

/-- A maximal plain run goes through the trailing-punctuation splitter. -/
theorem sf_run_eq (run rest : Str) (h0 : run ≠ [])
    (hr : ∀ c ∈ run, isPlain c = true)
    (hrest : ∀ c, rest.head? = some c → isPlain c = false) :
    tokens_space_free (run ++ rest)
      = split_trailing_punct run ++ tokens_space_free rest := by
  match run with
  | c :: cs =>
    have hplain : isPlain c = true := hr c (by simp)
    have hnb : ¬ c = '[' := by
      intro hc
      rw [hc] at hplain
      simp [isPlain] at hplain
    have hncjk : isCJK c = false := by
      cases hcc : isCJK c
      · rfl
      · rw [isPlain, hcc] at hplain
        simp at hplain
    have htkr : rest.takeWhile isPlain = [] := by
      cases hre : rest with
      | nil => rfl
      | cons d ds =>
        exact List.takeWhile_cons_of_neg (by simp [hrest d (by rw [hre]; rfl)])
    have hdrr : rest.dropWhile isPlain = rest := by
      cases hre : rest with
      | nil => rfl
      | cons d ds =>
        exact List.dropWhile_cons_of_neg (by simp [hrest d (by rw [hre]; rfl)])
    rw [tokens_space_free, List.cons_append, sfScan, if_neg hnb, if_neg (by simp [hncjk])]
    rw [show (c :: (cs ++ rest)) = (c :: cs) ++ rest from rfl]
    rw [takeWhile_append_all _ _ (fun x hx => hr x hx)]
    rw [dropWhile_append_all _ _ (fun x hx => hr x hx)]
    rw [htkr, hdrr, List.append_nil]
    rw [List.filter_append]
    rw [List.filter_eq_self.2 (fun u hu => by simpa using stp_ne_nil (c :: cs) u hu)]
    rfl

theorem tokens_space_free_nil : tokens_space_free [] = [] := by
  rw [tokens_space_free, sfScan]
  rfl

/-- C6: the space-free tokenizer scans code point by code point and is
    total: `[` opens a token running to the next `]` inclusive, an
    unterminated bracket absorbs the remainder as one terminal token,
    each CJK code point is its own token, maximal plain runs go through
    the trailing-punctuation splitter, empty tokens are discarded; and
    tokenize("人我[foo]水") = ["人", "我", "[foo]", "水"]. -/
theorem c6_space_free_tokenizer_behavior :
    (∀ pre post : Str, ']' ∉ pre →
       tokens_space_free ('[' :: pre ++ ']' :: post)
         = ('[' :: pre ++ [']']) :: tokens_space_free post)
  ∧ (∀ rest : Str, ']' ∉ rest → tokens_space_free ('[' :: rest) = ['[' :: rest])
  ∧ (∀ (c : Char) (cs : Str), isCJK c = true →
       tokens_space_free (c :: cs) = [c] :: tokens_space_free cs)
  ∧ (∀ run rest : Str, run ≠ [] → (∀ c ∈ run, isPlain c = true) →
       (∀ c, rest.head? = some c → isPlain c = false) →
       tokens_space_free (run ++ rest)
         = split_trailing_punct run ++ tokens_space_free rest)
  ∧ (∀ text : Str, ∀ t ∈ tokens_space_free text, t ≠ [])
  ∧ tokens_space_free ("人我[foo]水".toList)
      = [['人'], ['我'], '[' :: "foo".toList ++ [']'], ['水']] := by
  refine ⟨sf_bracket_eq, sf_unterminated_eq, sf_cjk_eq, sf_run_eq, ?_, ?_⟩
  · intro text t ht
    rw [tokens_space_free] at ht
    simpa using (List.mem_filter.1 ht).2
  · have h0 : ("人我[foo]水".toList)
        = '人' :: '我' :: ('[' :: ['f', 'o', 'o'] ++ ']' :: ['水']) := rfl
    rw [h0, sf_cjk_eq _ _ (by decide), sf_cjk_eq _ _ (by decide),
        sf_bracket_eq _ _ (by decide),
        show (['水'] : Str) = '水' :: [] from rfl,
        sf_cjk_eq _ _ (by decide), tokens_space_free_nil]
    rfl

theorem c6_space_free_tokenizer_behavior_witness :
    (tokens_space_free ('[' :: "fo".toList ++ ']' :: "x".toList)
       = ('[' :: "fo".toList ++ [']']) :: tokens_space_free ("x".toList))
    ∧ (tokens_space_free ('[' :: "ab".toList) = ['[' :: "ab".toList])
    ∧ (tokens_space_free ('人' :: "q".toList) = ['人'] :: tokens_space_free ("q".toList))
    ∧ (tokens_space_free ("ab".toList ++ '[' :: "x".toList)
       = split_trailing_punct ("ab".toList) ++ tokens_space_free ('[' :: "x".toList)) :=
  ⟨c6_space_free_tokenizer_behavior.1 _ _ (by decide),
   c6_space_free_tokenizer_behavior.2.1 _ (by decide),
   c6_space_free_tokenizer_behavior.2.2.1 '人' _ (by decide),
   c6_space_free_tokenizer_behavior.2.2.2.1 _ _ (by decide) (by decide)
     (by intro c hc; simp at hc; subst hc; decide)⟩

/-! ## Dict lemmas -/

theorem dget_append_single_ne {β : Type} (d : Dict β) (k k2 : Str) (v : β)
    (h : ¬ k2 = k) : dget (d ++ [(k, v)]) k2 = dget d k2 := by
  have h2 : ¬ k = k2 := fun hc => h hc.symm
  induction d with
  | nil => simp [dget, List.find?, h2]
  | cons p ps ih =>
    by_cases hp : p.1 = k2
    · rw [List.cons_append, dget, List.find?_cons_of_pos _ (by simp [hp])]
      rw [dget, List.find?_cons_of_pos _ (by simp [hp])]
    · rw [List.cons_append, dget, List.find?_cons_of_neg _ (by simp [hp])]
      rw [dget, List.find?_cons_of_neg _ (by simp [hp])]
      exact ih

theorem dget_append_single_self {β : Type} (d : Dict β) (k : Str) (v : β)
    (h : ¬ d.any (fun p => p.1 = k)) : dget (d ++ [(k, v)]) k = some v := by
  induction d with
  | nil => simp [dget, List.find?]
  | cons p ps ih =>
    have hp : ¬ p.1 = k := by
      intro hc
      exact h (by simp [List.any_cons, hc])
    rw [List.cons_append, dget, List.find?_cons_of_neg _ (by simp [hp])]
    exact ih (fun hc => h (by simp [List.any_cons, hc]))

theorem dget_map_replace_ne {β : Type} (d : Dict β) (k k2 : Str) (v : β)
    (h : ¬ k2 = k) :
    dget (d.map (fun p => if p.1 = k then (k, v) else p)) k2 = dget d k2 := by
  induction d with
  | nil => rfl
  | cons p ps ih =>
    rw [List.map_cons]
    by_cases hp : p.1 = k
    · rw [if_pos hp]
      rw [dget, List.find?_cons_of_neg _ (by simp; exact fun hc => h hc.symm)]
      rw [dget, List.find?_cons_of_neg _ (by simp [hp]; exact fun hc => h hc.symm)]
      exact ih
    · rw [if_neg hp]
      by_cases hp2 : p.1 = k2
      · rw [dget, List.find?_cons_of_pos _ (by simp [hp2])]
        rw [dget, List.find?_cons_of_pos _ (by simp [hp2])]
      · rw [dget, List.find?_cons_of_neg _ (by simp [hp2])]
        rw [dget, List.find?_cons_of_neg _ (by simp [hp2])]
        exact ih

theorem dget_map_replace_self {β : Type} (d : Dict β) (k : Str) (v : β)
    (h : d.any (fun p => p.1 = k)) :
    dget (d.map (fun p => if p.1 = k then (k, v) else p)) k = some v := by
  induction d with
  | nil => simp at h
  | cons p ps ih =>
    rw [List.map_cons]
    by_cases hp : p.1 = k
    · rw [if_pos hp]
      simp [dget, List.find?]
    · rw [if_neg hp]
      have hps : ps.any (fun p => p.1 = k) := by
        rcases List.any_eq_true.1 h with ⟨q, hq, hqk⟩
        rcases List.mem_cons.1 hq with rfl | hq2
        · exact absurd (by simpa using hqk) hp
        · exact List.any_eq_true.2 ⟨q, hq2, hqk⟩
      have hih := ih hps
      simp only [dget] at hih ⊢
      rw [List.find?_cons_of_neg _ (by simp [hp])]
      exact hih

/-- The one lookup fact about `dset`: it sets `k` and preserves every
    other key. -/
theorem dget_dset {β : Type} (d : Dict β) (k k2 : Str) (v : β) :
    dget (dset d k v) k2 = if k2 = k then some v else dget d k2 := by
  rw [dset]
  by_cases hany : d.any (fun p => p.1 = k)
  · rw [if_pos hany]
    by_cases h2 : k2 = k
    · subst h2
      rw [if_pos rfl]
      exact dget_map_replace_self d k2 v hany
    · rw [if_neg h2]
      exact dget_map_replace_ne d k k2 v h2
  · rw [if_neg hany]
    by_cases h2 : k2 = k
    · subst h2
      rw [if_pos rfl]
      exact dget_append_single_self d k2 v hany
    · rw [if_neg h2]
      exact dget_append_single_ne d k k2 v h2

/-! ## `build_index_maps`: last-write-wins characterization -/

theorem get?_inj_of_nodup (l : List Str) (i j : Nat) (a : Str) (hn : l.Nodup)
    (hi : l.get? i = some a) (hj : l.get? j = some a) : i = j := by
  have hi2 : l[i]? = some a := by simpa [List.get?_eq_getElem?] using hi
  have hj2 : l[j]? = some a := by simpa [List.get?_eq_getElem?] using hj
  have hilt : i < l.length := by
    by_contra hc
    rw [List.getElem?_eq_none (by omega)] at hi2
    simp at hi2
  exact List.getElem?_inj hilt hn (hi2.trans hj2.symm)

theorem enumFrom_snd_mem (l : List Str) :
    ∀ (n : Nat) (p : Nat × Str), p ∈ l.enumFrom n → p.2 ∈ l := by
  induction l with
  | nil => intro n p hp; simp at hp
  | cons h hs ih =>
    intro n p hp
    rw [List.enumFrom_cons] at hp
    rcases List.mem_cons.1 hp with rfl | hp2
    · simp
    · exact List.mem_cons_of_mem _ (ih (n + 1) p hp2)

theorem fillRow_fold_preserve (r : List Str) :
    ∀ (l : List (Nat × Str)) (d : Dict Str) (T : Str),
    (∀ p ∈ l, p.2 ≠ T) →
    dget (l.foldl (fillStep r) d) T = dget d T := by
  intro l
  induction l with
  | nil => intro d T hT; rfl
  | cons p ps ih =>
    intro d T hT
    rw [List.foldl_cons]
    rw [ih _ T (fun q hq => hT q (by simp [hq]))]
    rw [fillStep, dget_dset]
    rw [if_neg (fun hc => hT p (by simp) hc.symm)]

theorem fillRow_fold_lookup (r : List Str) (hdr : List Str) :
    ∀ (iT : Nat) (T : Str) (n : Nat) (d : Dict Str),
    hdr.Nodup → hdr.get? iT = some T →
    dget ((hdr.enumFrom n).foldl (fillStep r) d) T = some (r.getD (n + iT) []) := by
  induction hdr with
  | nil => intro iT T n d hnd hT; simp at hT
  | cons h hs ih =>
    intro iT T n d hnd hT
    rw [List.enumFrom_cons, List.foldl_cons]
    cases iT with
    | zero =>
      have hTh : T = h := by
        simp at hT
        exact hT.symm
      subst hTh
      rw [fillRow_fold_preserve r _ _ T (fun p hp hc => by
        have hmem : p.2 ∈ hs := enumFrom_snd_mem hs (n + 1) p hp
        rw [hc] at hmem
        exact (List.nodup_cons.1 hnd).1 hmem)]
      rw [fillStep, dget_dset, if_pos rfl]
      simp
    | succ iT2 =>
      have hT2 : hs.get? iT2 = some T := by simpa using hT
      rw [ih iT2 T (n + 1) _ (List.nodup_cons.1 hnd).2 hT2]
      have : n + 1 + iT2 = n + (iT2 + 1) := by omega
      rw [this]

/-- The lookup of `fillRow` at a header column is that column's cell. -/
theorem fillRow_lookup (hdr : List Str) (r : List Str) (d : Dict Str)
    (iT : Nat) (T : Str) (hnd : hdr.Nodup) (hT : hdr.get? iT = some T) :
    dget (fillRow hdr r d) T = some (r.getD iT []) := by
  rw [fillRow]
  have := fillRow_fold_lookup r hdr iT T 0 d hnd hT
  simpa using this

theorem enumFrom_mem_get? (l : List Str) :
    ∀ (n : Nat) (p : Nat × Str), p ∈ l.enumFrom n →
    n ≤ p.1 ∧ l.get? (p.1 - n) = some p.2 := by
  induction l with
  | nil => intro n p hp; simp at hp
  | cons h hs ih =>
    intro n p hp
    rw [List.enumFrom_cons] at hp
    rcases List.mem_cons.1 hp with rfl | hp2
    · simp
    · obtain ⟨hle, hget⟩ := ih (n + 1) p hp2
      refine ⟨by omega, ?_⟩
      have : p.1 - n = (p.1 - (n + 1)) + 1 := by omega
      rw [this]
      simpa using hget

theorem fromStep_fold_preserve (hdr0 : List Str) (r : List Str) :
    ∀ (l : List (Nat × Str)) (fwd : Fwd) (F : Str),
    (∀ p ∈ l, p.2 ≠ F) →
    dget (l.foldl (fromStep hdr0 r) fwd) F = dget fwd F := by
  intro l
  induction l with
  | nil => intro fwd F hF; rfl
  | cons p ps ih =>
    intro fwd F hF
    rw [List.foldl_cons]
    rw [ih _ F (fun q hq => hF q (by simp [hq]))]
    rw [fromStep]
    by_cases hsrc : r.getD p.1 [] = []
    · rw [if_pos hsrc]
    · rw [if_neg hsrc]
      rw [dget_dset]
      rw [if_neg (fun hc => hF p (by simp) hc.symm)]

theorem fromStep_preserve_lookup (hdr0 : List Str) (r : List Str) (fwd : Fwd)
    (p : Nat × Str) (F s T : Str)
    (hcond : p.2 = F → r.getD p.1 [] ≠ s) :
    fwdLookup (fromStep hdr0 r fwd p) F s T = fwdLookup fwd F s T := by
  rw [fromStep]
  by_cases hsrc : r.getD p.1 [] = []
  · rw [if_pos hsrc]
  · rw [if_neg hsrc]
    by_cases hpf : p.2 = F
    · have hss : ¬ s = r.getD p.1 [] := fun hc => (hcond hpf) hc.symm
      rw [fwdLookup, fwdLookup]
      rw [hpf]
      rw [dget_dset, if_pos rfl]
      rw [Option.some_bind]
      rw [dget_dset, if_neg hss]
      cases hfw : dget fwd F
      · simp [dget]
      · simp
    · rw [fwdLookup, fwdLookup]
      rw [dget_dset, if_neg (fun hc => hpf hc.symm)]

theorem fromStep_fold_preserve_lookup (hdr0 : List Str) (r : List Str) :
    ∀ (l : List (Nat × Str)) (fwd : Fwd) (F s T : Str),
    (∀ p ∈ l, p.2 = F → r.getD p.1 [] ≠ s) →
    fwdLookup (l.foldl (fromStep hdr0 r) fwd) F s T = fwdLookup fwd F s T := by
  intro l
  induction l with
  | nil => intro fwd F s T hc; rfl
  | cons p ps ih =>
    intro fwd F s T hc
    rw [List.foldl_cons]
    rw [ih _ F s T (fun q hq => hc q (by simp [hq]))]
    exact fromStep_preserve_lookup hdr0 r fwd p F s T (hc p (by simp))

theorem fromStep_fold_hit (hdr0 : List Str) (r : List Str) (iT : Nat) (T : Str)
    (hnd0 : hdr0.Nodup) (hT : hdr0.get? iT = some T) :
    ∀ (hdr : List Str) (n : Nat) (fwd : Fwd) (iF : Nat) (F s : Str),
    hdr.Nodup → hdr.get? iF = some F → r.getD (n + iF) [] = s → s ≠ [] →
    fwdLookup ((hdr.enumFrom n).foldl (fromStep hdr0 r) fwd) F s T
      = some (r.getD iT []) := by
  intro hdr
  induction hdr with
  | nil => intro n fwd iF F s hnd hF hcell hsne; simp at hF
  | cons h hs2 ih =>
    intro n fwd iF F s hnd hF hcell hsne
    rw [List.enumFrom_cons, List.foldl_cons]
    cases iF with
    | zero =>
      have hFh : F = h := by
        simp at hF
        exact hF.symm
      subst hFh
      rw [fwdLookup]
      rw [fromStep_fold_preserve hdr0 r _ _ F (fun p hp hc => by
        have hmem : p.2 ∈ hs2 := enumFrom_snd_mem hs2 (n + 1) p hp
        rw [hc] at hmem
        exact (List.nodup_cons.1 hnd).1 hmem)]
      have hcell0 : r.getD n [] = s := by simpa using hcell
      simp only [fromStep]
      rw [hcell0, if_neg hsne]
      rw [dget_dset, if_pos rfl]
      rw [Option.some_bind]
      rw [dget_dset, if_pos rfl]
      rw [Option.some_bind]
      exact fillRow_lookup hdr0 r _ iT T hnd0 hT
    | succ iF2 =>
      have hF2 : hs2.get? iF2 = some F := by simpa using hF
      have hcell2 : r.getD (n + 1 + iF2) [] = s := by
        have : n + 1 + iF2 = n + (iF2 + 1) := by omega
        rw [this]
        exact hcell
      exact ih (n + 1) _ iF2 F s (List.nodup_cons.1 hnd).2 hF2 hcell2 hsne

/-- Processing a row whose `F`-cell is the non-empty word `s` overwrites
    `forward[F][s][T]` with the row's `T`-cell, for every header column
    `T`. -/
theorem processRow_hit (hdr : List Str) (r : List Str) (fwd : Fwd)
    (iF iT : Nat) (F T s : Str)
    (hnd : hdr.Nodup) (hF : hdr.get? iF = some F) (hT : hdr.get? iT = some T)
    (hcell : r.getD iF [] = s) (hs : s ≠ []) :
    fwdLookup (processRow hdr fwd r) F s T = some (r.getD iT []) := by
  rw [processRow]
  exact fromStep_fold_hit hdr r iT T hnd hT hdr 0 fwd iF F s hnd hF
    (by simpa using hcell) hs

/-- Processing a row whose `F`-cell differs from `s` leaves
    `forward[F][s]` untouched. -/
theorem processRow_miss (hdr : List Str) (r : List Str) (fwd : Fwd)
    (iF : Nat) (F s T : Str)
    (hnd : hdr.Nodup) (hF : hdr.get? iF = some F)
    (hcell : r.getD iF [] ≠ s) :
    fwdLookup (processRow hdr fwd r) F s T = fwdLookup fwd F s T := by
  rw [processRow]
  apply fromStep_fold_preserve_lookup
  intro p hp hpf
  obtain ⟨hle, hget⟩ := enumFrom_mem_get? hdr 0 p hp
  rw [hpf] at hget
  have hp1 : p.1 - 0 = iF := get?_inj_of_nodup hdr _ _ F hnd hget hF
  have : p.1 = iF := by omega
  rw [this]
  exact hcell

theorem rows_fold_preserve (hdr : List Str) (iF : Nat) (F s T : Str)
    (hnd : hdr.Nodup) (hF : hdr.get? iF = some F) :
    ∀ (post : List (List Str)) (fwd : Fwd),
    (∀ row ∈ post, row.getD iF [] ≠ s) →
    fwdLookup (post.foldl (processRow hdr) fwd) F s T = fwdLookup fwd F s T := by
  intro post
  induction post with
  | nil => intro fwd hc; rfl
  | cons row rows2 ih =>
    intro fwd hc
    rw [List.foldl_cons]
    rw [ih _ (fun q hq => hc q (by simp [hq]))]
    exact processRow_miss hdr row fwd iF F s T hnd hF (hc row (by simp))

/-- C5: last-write-wins.  For a table whose header names are distinct and
    whose rows align with the header, `ForwardIndex[F][s][T]` equals the
    `T`-cell of the last row (in table order) whose `F`-cell is the
    non-empty word `s`, with no emptiness condition on the `T`-cell. -/
theorem c5_last_write_wins (hdr : List Str) (pre post : List (List Str))
    (rl : List Str) (iF iT : Nat) (F T s : Str)
    (hnd : hdr.Nodup)
    (hF : hdr.get? iF = some F) (hT : hdr.get? iT = some T)
    (hlen : ∀ row ∈ pre ++ rl :: post, row.length = hdr.length)
    (hcell : rl.getD iF [] = s) (hs : s ≠ [])
    (hpost : ∀ row ∈ post, row.getD iF [] ≠ s) :
    fwdLookup (build_index_maps hdr (pre ++ rl :: post)) F s T
      = some (rl.getD iT []) := by
  rw [build_index_maps, List.foldl_append, List.foldl_cons]
  rw [rows_fold_preserve hdr iF F s T hnd hF post _ hpost]
  exact processRow_hit hdr rl _ iF iT F T s hnd hF hT hcell hs

theorem c5_last_write_wins_witness :
    fwdLookup
      (build_index_maps ["A".toList, "B".toList]
        [["x".toList, "old".toList], ["x".toList, []]])
      "A".toList "x".toList "B".toList = some [] := by
  have h := c5_last_write_wins ["A".toList, "B".toList]
    [["x".toList, "old".toList]] [] ["x".toList, []] 0 1
    "A".toList "B".toList "x".toList
    (by decide) (by decide) (by decide)
    (by intro row hrow; fin_cases hrow <;> decide)
    (by decide) (by decide)
    (by intro row hrow; simp at hrow)
  simpa using h

/-! ## C3: `map_exact` and empty destination cells -/

/-- C3 (amended): for a non-punctuation token, `mapExact` signals
    "unmapped" (`none`) exactly when a key is missing at the language or
    token level, the token's entry dict is empty (falsy), or the
    destination key is absent; an explicitly empty destination *value*
    (empty cell) is returned as a successful empty-string translation,
    not as "unmapped". -/
theorem c3_map_exact_unmapped_characterization (fwd : Fwd) (A B t : Str)
    (hnp : isPunctTok t = false) :
    (map_exact fwd A B t = none ↔
       dget ((dget fwd A).getD []) t = none
       ∨ dget ((dget fwd A).getD []) t = some []
       ∨ ∃ e, dget ((dget fwd A).getD []) t = some e ∧ e ≠ [] ∧ dget e B = none)
    ∧ (∀ e v, dget ((dget fwd A).getD []) t = some e → e ≠ [] →
        dget e B = some v → map_exact fwd A B t = some v) := by
  constructor
  · cases he : dget ((dget fwd A).getD []) t with
    | none => simp [map_exact, hnp, he]
    | some e =>
      by_cases hee : e = []
      · subst hee
        simp [map_exact, hnp, he]
      · cases hb : dget e B with
        | none => simp [map_exact, hnp, he, hee, hb]
        | some v => simp [map_exact, hnp, he, hee, hb]
  · intro e v he hee hv
    simp [map_exact, hnp, he, hee, hv]

/-- C3 counterexample: a lexicon row whose `B`-cell is empty yields a
    *successful* empty-string translation (`some ""`), not the unmapped
    signal, so the bracket fallback does not apply and the destination
    token list receives an empty token instead of `"[x]"`. -/
theorem c3_counterexample :
    map_exact (build_index_maps ["A".toList, "B".toList] [["x".toList, []]])
        "A".toList "B".toList "x".toList = some []
    ∧ translate_token
        (build_index_maps ["A".toList, "B".toList] [["x".toList, []]])
        "A".toList "B".toList false false false "x".toList = []
    ∧ dest_tokens
        (build_index_maps ["A".toList, "B".toList] [["x".toList, []]])
        "A".toList "B".toList false false ["x".toList] = [[]]
    ∧ ([] : Str) ≠ "[x]".toList := by
  refine ⟨by decide, by decide, by decide, by decide⟩

theorem c3_map_exact_unmapped_characterization_witness :
    map_exact (build_index_maps ["A".toList, "B".toList] [["x".toList, "y".toList]])
        "A".toList "B".toList "x".toList = some ("y".toList) := by
  have h := (c3_map_exact_unmapped_characterization
    (build_index_maps ["A".toList, "B".toList] [["x".toList, "y".toList]])
    "A".toList "B".toList "x".toList (by decide)).2
    (dget ((dget (build_index_maps ["A".toList, "B".toList]
      [["x".toList, "y".toList]]) "A".toList).getD []) "x".toList).iget
    ("y".toList) (by decide) (by decide) (by decide)
  exact h

/-! ## C1: the `updating` guard -/

/-- C1 (amended): the `updating` guard is enforced at the text-changed
    trigger and at the focus-loss commit, which return immediately with
    the state unchanged; the bound-language-change trigger calls
    propagate unconditionally, and propagate itself performs no
    `updating` check. -/
theorem c1_guard_at_triggers (s : AppState) (pid : Nat) (h : s.updating = true) :
    on_text_changed s pid = s
    ∧ commit_brackets s pid = s
    ∧ on_pane_lang_changed s pid = translate_from_source s pid := by
  refine ⟨?_, ?_, rfl⟩
  · rw [on_text_changed, if_pos h]
  · rw [commit_brackets, if_pos h]

/-- C1 counterexample: in a state with `updating = true`, invoking
    propagate does not return immediately — it rewrites a destination
    pane's text. -/
theorem c1_counterexample :
    (AppState.mk [] [] [] [] [] [] [] true
        [⟨0, "a".toList, [], 0, false⟩, ⟨1, "b".toList, "stale".toList, 0, false⟩]
        2).updating = true
    ∧ (translate_from_source
        (AppState.mk [] [] [] [] [] [] [] true
          [⟨0, "a".toList, [], 0, false⟩, ⟨1, "b".toList, "stale".toList, 0, false⟩]
          2) 0).panes.map (fun p => p.text)
      ≠ (AppState.mk [] [] [] [] [] [] [] true
          [⟨0, "a".toList, [], 0, false⟩, ⟨1, "b".toList, "stale".toList, 0, false⟩]
          2).panes.map (fun p => p.text) := by
  refine ⟨rfl, by decide⟩

theorem c1_guard_at_triggers_witness :
    on_text_changed
        (AppState.mk [] [] [] [] [] [] [] true [⟨0, "a".toList, [], 0, false⟩] 1) 0
      = AppState.mk [] [] [] [] [] [] [] true [⟨0, "a".toList, [], 0, false⟩] 1
    ∧ commit_brackets
        (AppState.mk [] [] [] [] [] [] [] true [⟨0, "a".toList, [], 0, false⟩] 1) 0
      = AppState.mk [] [] [] [] [] [] [] true [⟨0, "a".toList, [], 0, false⟩] 1
    ∧ on_pane_lang_changed
        (AppState.mk [] [] [] [] [] [] [] true [⟨0, "a".toList, [], 0, false⟩] 1) 0
      = translate_from_source
        (AppState.mk [] [] [] [] [] [] [] true [⟨0, "a".toList, [], 0, false⟩] 1) 0 :=
  c1_guard_at_triggers _ 0 rfl

/-! ## C7: bracket-unwrap invariant -/

theorem getLast?_cons_append_last (c a : Char) (l : List Char) :
    (c :: (l ++ [a])).getLast? = some a := by
  induction l generalizing c with
  | nil => rfl
  | cons d ds ih =>
    rw [List.cons_append, List.getLast?_cons_cons]
    exact ih d

theorem isPunctTok_bracket (t : Str) : isPunctTok ('[' :: t ++ [']']) = false := by
  cases t with
  | nil => rfl
  | cons a as => rfl

/-- C7: a bracketed source token `"[t]"` is rendered as the unbracketed
    translation `u` when `mapExact` succeeds, and as `"[t]"` when it
    fails; and propagate writes exactly the join of the per-token
    translations into every destination pane. -/
theorem c7_bracket_unwrap (fwd : Fwd) (L1 L2 : Str) (ty ae il : Bool) (t : Str) :
    (∀ u, map_exact fwd L1 L2 t = some u →
       translate_token fwd L1 L2 ty ae il ('[' :: t ++ [']']) = u)
    ∧ (map_exact fwd L1 L2 t = none →
       translate_token fwd L1 L2 ty ae il ('[' :: t ++ [']']) = '[' :: t ++ [']'])
    ∧ (∀ (s : AppState) (srcId : Nat) (src : Pane) (k : Nat) (p : Pane),
        s.panes.find? (fun q => q.id = srcId) = some src →
        s.panes.get? k = some p → ¬ p.id = srcId →
        ∃ p2, (translate_from_source s srcId).panes.get? k = some p2 ∧
          p2.text = joinFor s.space_free
            (dest_tokens s.forward (real_lang s src) (real_lang s p)
              src.focus (src.cursor == src.text.length)
              (tokensFor s.space_free src.text (real_lang s src)))
            (real_lang s p)) := by
  have hbr : ('[' :: t ++ [']']).head? = some '[' ∧ ('[' :: t ++ [']']).getLast? = some ']' := by
    constructor
    · rfl
    · exact getLast?_cons_append_last '[' ']' t
  have hin : (('[' :: t ++ [']']).drop 1).dropLast = t := by
    rw [show ('[' :: t ++ [']']).drop 1 = t ++ [']'] from rfl]
    simp
  refine ⟨?_, ?_, ?_⟩
  · intro u hm
    rw [translate_token, if_neg (by rw [isPunctTok_bracket]; decide), if_pos hbr, hin]
    simp [hm]
  · intro hm
    rw [translate_token, if_neg (by rw [isPunctTok_bracket]; decide), if_pos hbr, hin]
    simp [hm]
  · intro s srcId src k p hfind hk hne
    have hk2 : s.panes[k]? = some p := by
      simpa [List.get?_eq_getElem?] using hk
    rw [translate_from_source]
    simp only [hfind]
    simp only [List.get?_eq_getElem?, List.getElem?_map, hk2, Option.map_some']
    rw [if_neg hne]
    by_cases heq : joinFor s.space_free
        (dest_tokens s.forward (real_lang s src) (real_lang s p)
          src.focus (src.cursor == src.text.length)
          (tokensFor s.space_free src.text (real_lang s src)))
        (real_lang s p) = p.text
    · rw [if_pos heq]
      exact ⟨p, rfl, heq.symm⟩
    · rw [if_neg heq]
      exact ⟨_, rfl, rfl⟩

theorem c7_bracket_unwrap_witness :
    (translate_token (build_index_maps ["A".toList, "B".toList] [["x".toList, "y".toList]])
        "A".toList "B".toList false false false ('[' :: "x".toList ++ [']']) = "y".toList)
    ∧ (translate_token (build_index_maps ["A".toList, "B".toList] [["x".toList, "y".toList]])
        "A".toList "B".toList false false false ('[' :: "z".toList ++ [']'])
          = '[' :: "z".toList ++ [']'])
    ∧ (∃ p2, (translate_from_source
          (AppState.mk [] [] [] [] [] [] [] false
            [⟨0, "a".toList, [], 0, false⟩, ⟨1, "b".toList, [], 0, false⟩] 2) 0).panes.get? 1
          = some p2 ∧
        p2.text = joinFor []
          (dest_tokens [] "a".toList "b".toList false
            ((0 : Nat) == ([] : Str).length)
            (tokensFor [] [] "a".toList))
          "b".toList) := by
  refine ⟨?_, ?_, ?_⟩
  · exact (c7_bracket_unwrap _ "A".toList "B".toList false false false "x".toList).1
      "y".toList (by decide)
  · exact (c7_bracket_unwrap _ "A".toList "B".toList false false false "z".toList).2.1
      (by decide)
  · exact (c7_bracket_unwrap [] [] [] false false false []).2.2
      (AppState.mk [] [] [] [] [] [] [] false
        [⟨0, "a".toList, [], 0, false⟩, ⟨1, "b".toList, [], 0, false⟩] 2)
      0 ⟨0, "a".toList, [], 0, false⟩ 1 ⟨1, "b".toList, [], 0, false⟩
      (by decide) (by decide) (by decide)

/-! ## C10: empty text tokenizes to nothing and clears destinations -/

theorem tokens_ws_nil : tokens_ws [] = [] := rfl

theorem tokensFor_nil (space_free : List Str) (lang : Str) :
    tokensFor space_free [] lang = [] := by
  by_cases h : lang ∈ space_free <;>
    simp [tokensFor, h, tokens_space_free_nil, tokens_ws_nil]

theorem joinFor_nil (space_free : List Str) (lang : Str) :
    joinFor space_free [] lang = [] := by
  by_cases h : lang ∈ space_free <;> simp [joinFor, h, join_sf, join_ws, joinWsAux, strip]

theorem tokens_ws_all_ws (text : Str) (h : ∀ c ∈ text, isWs c = true) :
    tokens_ws text = [] := by
  have hstrip : strip text = [] := by
    rw [strip, dropWhile_all text h]
    rfl
  rw [tokens_ws, if_pos hstrip]

/-- C10: tokenize of the empty string is empty in both modes, any
    whitespace-only text tokenizes to nothing in whitespace mode, join of
    no tokens is the empty string, and a propagation whose source pane is
    empty sets every other pane's text to the empty string. -/
theorem c10_empty_source_clears (s : AppState) (srcId : Nat) (src : Pane)
    (hfind : s.panes.find? (fun q => q.id = srcId) = some src)
    (htext : src.text = []) :
    (∀ (space_free : List Str) (lang : Str), tokensFor space_free [] lang = [])
    ∧ (∀ text : Str, (∀ c ∈ text, isWs c = true) → tokens_ws text = [])
    ∧ (∀ (space_free : List Str) (lang : Str), joinFor space_free [] lang = [])
    ∧ (∀ p ∈ (translate_from_source s srcId).panes, ¬ p.id = srcId → p.text = []) := by
  refine ⟨tokensFor_nil, tokens_ws_all_ws, joinFor_nil, ?_⟩
  intro p hp hne
  rw [translate_from_source] at hp
  simp only [hfind] at hp
  simp only [List.mem_map] at hp
  obtain ⟨q, hq, rfl⟩ := hp
  by_cases hqid : q.id = srcId
  · rw [if_pos hqid] at hne ⊢
    exact absurd hqid hne
  · rw [if_neg hqid] at hne ⊢
    have hnd : joinFor s.space_free
        (dest_tokens s.forward (real_lang s src) (real_lang s q)
          src.focus (src.cursor == src.text.length)
          (tokensFor s.space_free src.text (real_lang s src)))
        (real_lang s q) = [] := by
      rw [htext, tokensFor_nil]
      simp [dest_tokens, joinFor_nil]
    rw [hnd]
    by_cases heq : ([] : Str) = q.text
    · rw [if_pos heq]
      exact heq.symm
    · rw [if_neg heq]

theorem c10_empty_source_clears_witness :
    tokensFor ["b".toList] [] "b".toList = []
    ∧ tokens_ws [' ', ' '] = []
    ∧ joinFor [] [] "a".toList = []
    ∧ (∀ p ∈ (translate_from_source
        (AppState.mk [] [] [] [] [] [] [] false
          [⟨0, "a".toList, [], 0, false⟩, ⟨1, "b".toList, "old".toList, 0, false⟩] 2)
        0).panes, ¬ p.id = 0 → p.text = []) := by
  have h := c10_empty_source_clears
    (AppState.mk [] [] [] [] [] [] [] false
      [⟨0, "a".toList, [], 0, false⟩, ⟨1, "b".toList, "old".toList, 0, false⟩] 2)
    0 ⟨0, "a".toList, [], 0, false⟩ (by decide) (by decide)
  exact ⟨h.1 _ _, h.2.1 _ (by decide), h.2.2.1 _ _, h.2.2.2⟩

/-! ## C9: registry keeps at least one pane -/

/-- C9: `removePane` on a registry holding exactly one pane is a no-op
    (the whole state, pane included, is unchanged), and `removePane` for
    an id not present in the registry is also a no-op. -/
theorem c9_remove_pane_noop (s : AppState) (pid : Nat) :
    (s.panes.length = 1 → close_pane s pid = s)
    ∧ ((s.panes.any (fun p => p.id = pid)) = false → close_pane s pid = s) := by
  constructor
  · intro h1
    rw [close_pane, if_pos (by omega)]
  · intro h2
    rw [close_pane]
    by_cases hl : s.panes.length ≤ 1
    · rw [if_pos hl]
    · rw [if_neg hl, if_pos (by simp [h2])]

theorem c9_remove_pane_noop_witness :
    close_pane (AppState.mk [] [] [] [] [] [] [] false
      [⟨0, "a".toList, [], 0, false⟩] 1) 0
      = AppState.mk [] [] [] [] [] [] [] false [⟨0, "a".toList, [], 0, false⟩] 1
    ∧ close_pane (AppState.mk [] [] [] [] [] [] [] false
        [⟨0, "a".toList, [], 0, false⟩, ⟨1, "b".toList, [], 0, false⟩] 2) 77
      = AppState.mk [] [] [] [] [] [] [] false
        [⟨0, "a".toList, [], 0, false⟩, ⟨1, "b".toList, [], 0, false⟩] 2 :=
  ⟨(c9_remove_pane_noop _ 0).1 rfl, (c9_remove_pane_noop _ 77).2 (by decide)⟩

/-! ## C8: addPane acceptance and rejection -/

theorem translate_panes_length (s : AppState) (pid : Nat) :
    (translate_from_source s pid).panes.length = s.panes.length := by
  rw [translate_from_source]
  cases hf : s.panes.find? (fun p => p.id = pid) with
  | none => simp
  | some src => simp

theorem translate_panes_lang (s : AppState) (pid : Nat) (k : Nat) :
    ((translate_from_source s pid).panes.get? k).map (fun p => p.lang)
      = (s.panes.get? k).map (fun p => p.lang) := by
  rw [translate_from_source]
  cases hf : s.panes.find? (fun p => p.id = pid) with
  | none => simp
  | some src =>
    simp only [List.get?_eq_getElem?, List.getElem?_map]
    cases hk : s.panes[k]? with
    | none => simp
    | some p =>
      simp only [Option.map_some']
      congr 1
      by_cases h1 : p.id = pid
      · rw [if_pos h1]
      · rw [if_neg h1]
        split <;> rfl

/-- C8 counterexample: with header languages a, b, c and three panes
    bound to a, a, b (duplicates arise through per-pane language
    selection), `addPane` is rejected although language c is not bound by
    any pane — the rejection tests pane count against label count, not
    "every language bound". -/
theorem c8_counterexample :
    on_add_pane (AppState.mk [] [] [] [] [] []
        ["a".toList, "b".toList, "c".toList] false
        [⟨0, "a".toList, [], 0, false⟩, ⟨1, "a".toList, [], 0, false⟩,
         ⟨2, "b".toList, [], 0, false⟩] 3)
      = AppState.mk [] [] [] [] [] []
        ["a".toList, "b".toList, "c".toList] false
        [⟨0, "a".toList, [], 0, false⟩, ⟨1, "a".toList, [], 0, false⟩,
         ⟨2, "b".toList, [], 0, false⟩] 3
    ∧ "c".toList ∈ (["a".toList, "b".toList, "c".toList] : List Str)
    ∧ ∀ p ∈ [(⟨0, "a".toList, [], 0, false⟩ : Pane), ⟨1, "a".toList, [], 0, false⟩,
         ⟨2, "b".toList, [], 0, false⟩], ¬ p.lang = "c".toList := by
  refine ⟨rfl, by decide, by decide⟩

/-- C8 (amended): `addPane` is rejected — state unchanged — exactly when
    the pane count has reached the label count; when accepted, the pane
    count grows by one and the new pane is bound to the first label not
    bound by any existing pane (which exists when the labels are
    distinct). -/
theorem c8_add_pane (s : AppState) (hnd : s.labels.Nodup) :
    (s.labels.length ≤ s.panes.length → on_add_pane s = s)
    ∧ (s.panes.length < s.labels.length →
        (on_add_pane s).panes.length = s.panes.length + 1
        ∧ ∃ lab, lab ∈ s.labels ∧ lab ∉ s.panes.map (fun p => p.lang)
            ∧ ((on_add_pane s).panes.get? s.panes.length).map (fun p => p.lang)
              = some lab) := by
  constructor
  · intro h
    rw [on_add_pane, if_pos h]
  · intro h
    rw [on_add_pane, if_neg (by omega)]
    cases hfind : s.labels.find? (fun lab => !((s.panes.map (fun p => p.lang)).contains lab)) with
    | none =>
      exfalso
      have hall := List.find?_eq_none.1 hfind
      have hsub : s.labels ⊆ s.panes.map (fun p => p.lang) := by
        intro lab hlab
        have := hall lab hlab
        simp at this
        obtain ⟨x, hx, hxl⟩ := this
        rw [List.mem_map]
        exact ⟨x, hx, hxl⟩
      have hcard : s.labels.length ≤ (s.panes.map (fun p => p.lang)).length := by
        calc s.labels.length = s.labels.toFinset.card :=
              (List.toFinset_card_of_nodup hnd).symm
          _ ≤ (s.panes.map (fun p => p.lang)).toFinset.card := by
              apply Finset.card_le_card
              intro x hx
              rw [List.mem_toFinset] at hx ⊢
              exact hsub hx
          _ ≤ (s.panes.map (fun p => p.lang)).length := List.toFinset_card_le _
      rw [List.length_map] at hcard
      omega
    | some lab =>
      have hmem : lab ∈ s.labels := List.mem_of_find?_eq_some hfind
      have hpred := List.find?_some hfind
      have hnotused : lab ∉ s.panes.map (fun p => p.lang) := by
        simp at hpred
        rw [List.mem_map]
        rintro ⟨x, hx, hxl⟩
        exact hpred x hx hxl
      simp only [hfind]
      -- the accepted branch: s1 has panes ++ [new pane]; then maybe translate
      set pane : Pane := ⟨s.nextId, lab, [], 0, false⟩ with hpane
      set s1 : AppState := { s with panes := s.panes ++ [pane], nextId := s.nextId + 1 }
        with hs1
      have hget : s1.panes.get? s.panes.length = some pane := by
        rw [hs1]
        simp [List.get?_concat_length]
      have hlen1 : s1.panes.length = s.panes.length + 1 := by
        rw [hs1]
        simp
      by_cases hgt : 1 < s1.panes.length
      · rw [if_pos hgt]
        cases hbs : best_source_pane s1 with
        | none =>
          refine ⟨hlen1, lab, hmem, hnotused, ?_⟩
          rw [hget]
          rfl
        | some src =>
          refine ⟨by rw [translate_panes_length]; exact hlen1, lab, hmem, hnotused, ?_⟩
          rw [translate_panes_lang, hget]
          rfl
      · rw [if_neg hgt]
        refine ⟨hlen1, lab, hmem, hnotused, ?_⟩
        rw [hget]
        rfl

theorem c8_add_pane_witness :
    (on_add_pane (AppState.mk [] [] [] [] [] [] ["a".toList, "b".toList] false
        [⟨0, "a".toList, [], 0, false⟩, ⟨1, "b".toList, [], 0, false⟩] 2)
      = AppState.mk [] [] [] [] [] [] ["a".toList, "b".toList] false
        [⟨0, "a".toList, [], 0, false⟩, ⟨1, "b".toList, [], 0, false⟩] 2)
    ∧ ((on_add_pane (AppState.mk [] [] [] [] [] [] ["a".toList, "b".toList] false
          [⟨0, "a".toList, [], 0, false⟩] 1)).panes.length = 1 + 1
       ∧ ∃ lab, lab ∈ (["a".toList, "b".toList] : List Str)
           ∧ lab ∉ ([⟨0, "a".toList, [], 0, false⟩] : List Pane).map (fun p => p.lang)
           ∧ ((on_add_pane (AppState.mk [] [] [] [] [] [] ["a".toList, "b".toList] false
                [⟨0, "a".toList, [], 0, false⟩] 1)).panes.get? 1).map (fun p => p.lang)
             = some lab) :=
  ⟨(c8_add_pane _ (by decide)).1 (by decide),
   (c8_add_pane _ (by decide)).2 (by decide)⟩

/-! ## C4: zero-data-row language sets -/

theorem translate_keeps_index (s : AppState) (pid : Nat) :
    (translate_from_source s pid).header = s.header
    ∧ (translate_from_source s pid).forward = s.forward := by
  rw [translate_from_source]
  cases hf : s.panes.find? (fun p => p.id = pid) with
  | none => exact ⟨rfl, rfl⟩
  | some src => exact ⟨rfl, rfl⟩

theorem init_fold_values (hdr : List Str) :
    ∀ (acc : Fwd),
    (∀ F, dget acc F = none ∨ dget acc F = some []) →
    ∀ F, dget (hdr.foldl (fun f name => dset f name []) acc) F = none
      ∨ dget (hdr.foldl (fun f name => dset f name []) acc) F = some [] := by
  induction hdr with
  | nil => intro acc hacc F; exact hacc F
  | cons h hs ih =>
    intro acc hacc F
    rw [List.foldl_cons]
    refine ih _ ?_ F
    intro G
    rw [dget_dset]
    by_cases hG : G = h
    · rw [if_pos hG]
      exact Or.inr rfl
    · rw [if_neg hG]
      exact hacc G

theorem init_forward_values (hdr : List Str) (F : Str) :
    dget (init_forward hdr) F = none ∨ dget (init_forward hdr) F = some [] := by
  rw [init_forward]
  exact init_fold_values hdr [] (fun G => Or.inl rfl) F

/-- C4 (amended): building the lexicon index from a table with zero data
    rows does not fail — it returns an index with an empty word-map for
    every header language (there is no `EmptyLexiconError` in the code) —
    and a language-set switch to such a set is accepted: the new header
    and the all-empty forward index replace the prior active set's. -/
theorem c4_empty_rows_accepted (s : AppState) (name : Str) (raw : List (List Str))
    (hget : dget s.language_sets name = some raw)
    (hrows : (parse_csv raw).2 = []) :
    build_index_maps (parse_csv raw).1 (parse_csv raw).2
      = init_forward (parse_csv raw).1
    ∧ (on_change_set s name).header = (parse_csv raw).1
    ∧ (on_change_set s name).forward = init_forward (parse_csv raw).1
    ∧ ∀ F t, dget ((dget (on_change_set s name).forward F).getD []) t = none := by
  have hbuild : build_index_maps (parse_csv raw).1 (parse_csv raw).2
      = init_forward (parse_csv raw).1 := by
    rw [hrows, build_index_maps]
    rfl
  have hkey : (on_change_set s name).header = (parse_csv raw).1
      ∧ (on_change_set s name).forward = init_forward (parse_csv raw).1 := by
    rw [on_change_set]
    simp only [hget]
    split
    · constructor
      · rw [(translate_keeps_index _ _).1]
      · rw [(translate_keeps_index _ _).2]
        exact hbuild
    · exact ⟨rfl, hbuild⟩
  refine ⟨hbuild, hkey.1, hkey.2, ?_⟩
  intro F t
  rw [hkey.2]
  rcases init_forward_values (parse_csv raw).1 F with hF | hF
  · rw [hF]
    rfl
  · rw [hF]
    rfl

theorem c4_counterexample :
    fwdLookup
      (on_change_set
        (AppState.mk [("e".toList, [["A".toList, "B".toList]])]
          ["A".toList, "B".toList] [["x".toList, "y".toList]]
          [("A".toList, [("x".toList, [("A".toList, "x".toList), ("B".toList, "y".toList)])])]
          [] [] ["A".toList, "B".toList] false
          [⟨0, "A".toList, [], 0, false⟩, ⟨1, "B".toList, [], 0, false⟩] 2)
        "e".toList).forward
      "A".toList "x".toList "B".toList = none
    ∧ fwdLookup
        (AppState.mk [("e".toList, [["A".toList, "B".toList]])]
          ["A".toList, "B".toList] [["x".toList, "y".toList]]
          [("A".toList, [("x".toList, [("A".toList, "x".toList), ("B".toList, "y".toList)])])]
          [] [] ["A".toList, "B".toList] false
          [⟨0, "A".toList, [], 0, false⟩, ⟨1, "B".toList, [], 0, false⟩] 2).forward
        "A".toList "x".toList "B".toList = some ("y".toList)
    ∧ (on_change_set
        (AppState.mk [("e".toList, [["A".toList, "B".toList]])]
          ["A".toList, "B".toList] [["x".toList, "y".toList]]
          [("A".toList, [("x".toList, [("A".toList, "x".toList), ("B".toList, "y".toList)])])]
          [] [] ["A".toList, "B".toList] false
          [⟨0, "A".toList, [], 0, false⟩, ⟨1, "B".toList, [], 0, false⟩] 2)
        "e".toList).header = ["A".toList, "B".toList] := by
  refine ⟨?_, by decide, ?_⟩
  · rw [on_change_set]
    simp only [show dget
      (AppState.mk [("e".toList, [["A".toList, "B".toList]])]
        ["A".toList, "B".toList] [["x".toList, "y".toList]]
        [("A".toList, [("x".toList, [("A".toList, "x".toList), ("B".toList, "y".toList)])])]
        [] [] ["A".toList, "B".toList] false
        [⟨0, "A".toList, [], 0, false⟩, ⟨1, "B".toList, [], 0, false⟩] 2).language_sets
      "e".toList = some [["A".toList, "B".toList]] from by decide]
    split
    · rw [(translate_keeps_index _ _).2]
      decide
    · decide
  · rw [on_change_set]
    simp only [show dget
      (AppState.mk [("e".toList, [["A".toList, "B".toList]])]
        ["A".toList, "B".toList] [["x".toList, "y".toList]]
        [("A".toList, [("x".toList, [("A".toList, "x".toList), ("B".toList, "y".toList)])])]
        [] [] ["A".toList, "B".toList] false
        [⟨0, "A".toList, [], 0, false⟩, ⟨1, "B".toList, [], 0, false⟩] 2).language_sets
      "e".toList = some [["A".toList, "B".toList]] from by decide]
    split
    · rw [(translate_keeps_index _ _).1]
      decide
    · decide

theorem c4_empty_rows_accepted_witness :
    build_index_maps (parse_csv [["A".toList, "B".toList]]).1
        (parse_csv [["A".toList, "B".toList]]).2
      = init_forward (parse_csv [["A".toList, "B".toList]]).1
    ∧ (on_change_set
        (AppState.mk [("e".toList, [["A".toList, "B".toList]])]
          [] [] [] [] [] [] false [⟨0, "A".toList, [], 0, false⟩] 1)
        "e".toList).header = (parse_csv [["A".toList, "B".toList]]).1
    ∧ (on_change_set
        (AppState.mk [("e".toList, [["A".toList, "B".toList]])]
          [] [] [] [] [] [] false [⟨0, "A".toList, [], 0, false⟩] 1)
        "e".toList).forward = init_forward (parse_csv [["A".toList, "B".toList]]).1
    ∧ ∀ F t, dget ((dget (on_change_set
        (AppState.mk [("e".toList, [["A".toList, "B".toList]])]
          [] [] [] [] [] [] false [⟨0, "A".toList, [], 0, false⟩] 1)
        "e".toList).forward F).getD []) t = none :=
  c4_empty_rows_accepted
    (AppState.mk [("e".toList, [["A".toList, "B".toList]])]
      [] [] [] [] [] [] false [⟨0, "A".toList, [], 0, false⟩] 1)
    "e".toList [["A".toList, "B".toList]] (by decide) (by decide)
